import Mathlib

/-!
Wolfsrudel: the ledger of `src/block/blockchain.go` and the wallet of `src/wallet/wallet.go`

A shallow embedding of the Go packages `block` and `wallet` and theorems about them.

Conventions of the embedding

* Go methods with a pointer receiver that mutate the ledger are functions that take the
  ledger and return the result together with the new ledger.
* A call that does not return normally (a run-time panic, or a loop that has not finished
  within the given number of iterations) is `none`.
* `[]*Transaction` is `Option (List Transaction)`: `none` is the nil slice, `some l` a non-nil
  slice with elements `l`.  The two differ in their JSON rendering (`null` against `[...]`).
  Transactions are never mutated once built, and every slice stored in a block is
  never appended to afterwards (`CreateBlock` gives the pool a fresh slice), so values are
  enough and no aliasing has to be tracked.  The section on slices with their backing
  arrays tracks the arrays all the same and shows that the ledger by value is what the
  ledger of slice headers denotes (`MemReachable_view`).
* `int` is the 64-bit two's complement integer: an `Int` wrapped by `wrapInt64` where the
  code increments it.
* `float32` is IEEE 754 binary32 with round-to-nearest-even, modelled by `Float32`.
* Functions of imported libraries (`crypto/sha256`, `crypto/ecdsa`, the string and number
  renderings of `encoding/json`) are the fields of `Lib`, those package `wallet` calls on byte
  slices the fields of `WalletLib`; the clock reading of `time.Now()` is an explicit argument
  `now`, and so are the key `ecdsa.GenerateKey` returns and the bytes read from
  `rand.Reader`.
* `sync.Mutex` is not modelled: the embedding is sequential.
-/

/-! ## IEEE 754 binary32 -/

/-- A `float32` value.  `finite neg mant exp` denotes `(-1)^neg * mant * 2^exp`; the values
the arithmetic produces are canonical: `mant < 2^24`, `-149 ≤ exp ≤ 104`, and
`2^23 ≤ mant` unless `exp = -149`. -/
inductive Float32 where
  | finite (neg : Bool) (mant : Nat) (exp : Int)
  | inf (neg : Bool)
  | nan
deriving DecidableEq, Repr

namespace Float32

/-- Number of binary digits of `n`; the first argument bounds the recursion. -/
def bitLengthAux : Nat → Nat → Nat
  | 0, _ => 0
  | fuel + 1, n => if n = 0 then 0 else bitLengthAux fuel (n / 2) + 1

/-- Number of binary digits of `n` (`0` for `0`). -/
def bitLength (n : Nat) : Nat := bitLengthAux n n

/-- The binary32 value nearest to `(-1)^neg * n * 2^e` for `n > 0`, ties to even;
overflow gives an infinity. -/
def round (neg : Bool) (n : Nat) (e : Int) : Float32 :=
  let len := bitLength n
  if len ≤ 24 then
    -- exactly representable mantissa: shift left as far as the exponent range allows
    let k := min (24 - len) (e + 149).toNat
    if e - k > 104 then inf neg else finite neg (n * 2 ^ k) (e - k)
  else
    let sh := len - 24
    let q := n / 2 ^ sh
    let r := n % 2 ^ sh
    let half := 2 ^ (sh - 1)
    let q1 := if r > half ∨ (r = half ∧ q % 2 = 1) then q + 1 else q
    let m := if q1 = 2 ^ 24 then 2 ^ 23 else q1
    let e1 := if q1 = 2 ^ 24 then e + sh + 1 else e + sh
    if e1 > 104 then inf neg else finite neg m e1

/-- The mantissa of a finite value as a signed integer. -/
def signed (neg : Bool) (mant : Nat) : Int := if neg then -(mant : Int) else mant

/-- Go's `x + y` on `float32`. -/
def add : Float32 → Float32 → Float32
  | nan, _ => nan
  | _, nan => nan
  | inf s, inf t => if s = t then inf s else nan
  | inf s, finite _ _ _ => inf s
  | finite _ _ _, inf t => inf t
  | finite s m e, finite t n f =>
    let g := min e f
    let total := signed s m * 2 ^ (e - g).toNat + signed t n * 2 ^ (f - g).toNat
    if total = 0 then finite (s && t) 0 (-149)
    else round (decide (total < 0)) total.natAbs g

/-- Go's unary `-x` on `float32`. -/
def neg : Float32 → Float32
  | finite s m e => finite (!s) m e
  | inf s => inf (!s)
  | nan => nan

/-- Go's `x - y` on `float32`. -/
def sub (x y : Float32) : Float32 := add x (neg y)

/-- The `float32` nearest to the natural number `n` (conversion of an integer constant). -/
def ofNat (n : Nat) : Float32 := if n = 0 then finite false 0 (-149) else round false n 0

/-- Positive zero, the zero value of a `float32` variable. -/
def zero : Float32 := finite false 0 (-149)

instance : Add Float32 := ⟨add⟩
instance : Sub Float32 := ⟨sub⟩
instance : Neg Float32 := ⟨neg⟩

end Float32

/-! ## Slices, byte arrays and the imported libraries -/

/-- A Go slice by value: `none` is the nil slice, `some l` a non-nil slice holding `l`. -/
abbrev Slice (α : Type) := Option (List α)

namespace Slice

/-- The elements of a slice, in order (none for the nil slice). -/
def elems {α : Type} : Slice α → List α
  | none => []
  | some l => l

/-- Go's `len(s)`. -/
def len {α : Type} (s : Slice α) : Nat := s.elems.length

/-- Go's `append(s, x)`: never nil. -/
def append {α : Type} (s : Slice α) (x : α) : Slice α := some (s.elems ++ [x])

end Slice

/-- A `[32]byte` array: 32 bytes, each given by its numeric value. -/
abbrev Hash32 := { l : List Nat // l.length = 32 }

/-- The lowercase hexadecimal digit of a value below 16. -/
def hexDigit (n : Nat) : Char := "0123456789abcdef".data.getD n '0'

/-- The two hexadecimal digits that `%x` prints for one byte. -/
def hexByte (b : Nat) : List Char := [hexDigit (b / 16 % 16), hexDigit (b % 16)]

/-- The characters of `fmt.Sprintf("%x", bytes)`. -/
def hexChars : List Nat → List Char
  | [] => []
  | b :: bs => hexByte b ++ hexChars bs

namespace ecdsa

/-- The coordinates of `ecdsa.PublicKey` (the curve is fixed by the wallet). -/
structure PublicKey where
  X : Int
  Y : Int
deriving DecidableEq, Repr

end ecdsa

namespace utils

/-- Modelled from the spec: `utils.Signature` is declared in `utils/`, which is not among the
sources; it is the detached signature pair `(r, s)` whose fields `R` and `S` the ledger
passes to `ecdsa.Verify`, each a `*big.Int` (`none` is the nil pointer). -/
structure Signature where
  R : Option Int
  S : Option Int
deriving DecidableEq, Repr

end utils

/-- The functions of imported libraries the ledger calls.  `sha256` is `sha256.Sum256`
applied to the UTF-8 bytes of a text, `ecdsaVerify pub h r s` is `ecdsa.Verify` (its
pointer arguments may be nil, and `none` is a call that panics), and `jsonString`,
`jsonFloat32` are the renderings `encoding/json` gives a `string` and a `float32` field;
the latter is `none` for the values `encoding/json` reports as unsupported (NaN and the
infinities). -/
structure Lib where
  sha256 : String → Hash32
  ecdsaVerify : Option ecdsa.PublicKey → Hash32 → Option Int → Option Int → Option Bool
  jsonString : String → String
  jsonFloat32 : Float32 → Option String

/-- Two's complement wrap-around of a 64-bit `int`. -/
def wrapInt64 (x : Int) : Int := (x + 2 ^ 63) % 2 ^ 64 - 2 ^ 63

/-! ## Package `block` -/

namespace block

/-- Number of leading zero digits a block hash must show (`MINING_DIFFICULTY`). -/
def MINING_DIFFICULTY : Nat := 3

/-- The reserved sender of reward transactions (`MINING_SENDER`). -/
def MINING_SENDER : String := "THE BLOCKCHAIN"

/-- The reward of a mining round (`MINING_REWARD`, the constant `1.0` as a `float32`). -/
def MINING_REWARD : Float32 := Float32.ofNat 1

/-- The struct `Transaction`. -/
structure Transaction where
  senderBlockchainAddress : String
  recipientBlockchainAddress : String
  value : Float32
deriving DecidableEq, Repr

/-- The constructor `NewTransaction`. -/
def NewTransaction (sender recipient : String) (value : Float32) : Transaction :=
  { senderBlockchainAddress := sender, recipientBlockchainAddress := recipient, value := value }

/-- The method `Transaction.MarshalJSON`: the three fields in declaration order; `none` is
the error `json.Marshal` returns when the value cannot be rendered. -/
def Transaction.MarshalJSON (lib : Lib) (t : Transaction) : Option String :=
  match lib.jsonFloat32 t.value with
  | none => none
  | some value =>
    some ("\x7b\"sender_blockchain_address\":" ++ lib.jsonString t.senderBlockchainAddress ++
      ",\"recipient_blockchain_address\":" ++ lib.jsonString t.recipientBlockchainAddress ++
      ",\"value\":" ++ value ++ "\x7d")

/-- The struct `Block`. -/
structure Block where
  timestamp : Int
  nonce : Int
  previousHash : Hash32
  transactions : Slice Transaction
deriving DecidableEq

/-- The constructor `NewBlock`; `now` is the reading of `time.Now().UnixNano()`. -/
def NewBlock (now : Int) (nonce : Int) (previousHash : Hash32)
    (transactions : Slice Transaction) : Block :=
  { timestamp := now, nonce := nonce, previousHash := previousHash,
    transactions := transactions }

/-- The zero value `Block{}` (written `&Block{}` in `NewBlockchain`). -/
def Block.zeroValue : Block :=
  { timestamp := 0, nonce := 0, previousHash := ⟨List.replicate 32 0, rfl⟩,
    transactions := none }

/-- The renderings of the elements of a slice, or `none` when one of them fails. -/
def marshalElements (lib : Lib) : List Transaction → Option (List String)
  | [] => some []
  | t :: ts =>
    match Transaction.MarshalJSON lib t, marshalElements lib ts with
    | some x, some xs => some (x :: xs)
    | _, _ => none

/-- The rendering `encoding/json` gives a `[]*Transaction`: `null` for the nil slice,
otherwise the elements between brackets, separated by commas. -/
def marshalTransactions (lib : Lib) : Slice Transaction → Option String
  | none => some "null"
  | some l =>
    match marshalElements lib l with
    | none => none
    | some texts => some ("[" ++ ",".intercalate texts ++ "]")

/-- The method `Block.MarshalJSON`; `none` is the error of `json.Marshal`. -/
def Block.MarshalJSON (lib : Lib) (b : Block) : Option String :=
  match marshalTransactions lib b.transactions with
  | none => none
  | some transactions =>
    some ("\x7b\"timestamp\":" ++ toString b.timestamp ++
      ",\"nonce\":" ++ toString b.nonce ++
      ",\"previous_hash\":\"" ++ String.mk (hexChars b.previousHash.val) ++
      "\",\"transactions\":" ++ transactions ++ "\x7d")

/-- The method `Block.Hash`: SHA-256 of the block's JSON text.  The method drops the error
of `json.Marshal` (`m, _ := json.Marshal(block)`), and with an error `m` is nil, so what is
hashed then is the empty text. -/
def Block.Hash (lib : Lib) (b : Block) : Hash32 := lib.sha256 ((b.MarshalJSON lib).getD "")

/-- The struct `Blockchain` (the mutex is left out; a nil `chain` is the empty list). -/
structure Blockchain where
  transactionPool : Slice Transaction
  chain : List Block
  blockchainAddress : String
  port : Nat
deriving DecidableEq

namespace Blockchain

/-- The value `new(Blockchain)` points to. -/
def zeroValue : Blockchain :=
  { transactionPool := none, chain := [], blockchainAddress := "", port := 0 }

/-- The method `CreateBlock`: seals the pool's slice into a new block, appends it, and gives
the pool a fresh empty slice.  Returns the block and the new ledger. -/
def CreateBlock (bc : Blockchain) (now : Int) (nonce : Int) (previousHash : Hash32) :
    Block × Blockchain :=
  let b := NewBlock now nonce previousHash bc.transactionPool
  (b, { bc with chain := bc.chain ++ [b], transactionPool := some [] })

/-- The method `LastBlock`; indexing an empty chain panics. -/
def LastBlock (bc : Blockchain) : Option Block := bc.chain.getLast?

/-- The method `VerifyTransactionSignature`; reading `s.R` of a nil signature panics, and
so does a panic inside `ecdsa.Verify`.  The error of `json.Marshal` is dropped, and with an
error the digest is that of the empty text. -/
def VerifyTransactionSignature (lib : Lib) (senderPublicKey : Option ecdsa.PublicKey)
    (s : Option utils.Signature) (t : Transaction) : Option Bool :=
  match s with
  | none => none
  | some sig =>
    lib.ecdsaVerify senderPublicKey (lib.sha256 ((t.MarshalJSON lib).getD "")) sig.R sig.S

/-- The method `AddTransaction`. -/
def AddTransaction (bc : Blockchain) (lib : Lib) (sender recipient : String) (value : Float32)
    (senderPublicKey : Option ecdsa.PublicKey) (s : Option utils.Signature) :
    Option (Bool × Blockchain) :=
  let t := NewTransaction sender recipient value
  if sender = MINING_SENDER then
    some (true, { bc with transactionPool := bc.transactionPool.append t })
  else
    match VerifyTransactionSignature lib senderPublicKey s t with
    | none => none
    | some true => some (true, { bc with transactionPool := bc.transactionPool.append t })
    | some false => some (false, bc)

/-- The method `CreateTransaction`. -/
def CreateTransaction (bc : Blockchain) (lib : Lib) (sender recipient : String)
    (value : Float32) (senderPublicKey : Option ecdsa.PublicKey) (s : Option utils.Signature) :
    Option (Bool × Blockchain) :=
  bc.AddTransaction lib sender recipient value senderPublicKey s

/-- The method `CopyTransactionPool`: a fresh non-nil slice of fresh transactions. -/
def CopyTransactionPool (bc : Blockchain) : Slice Transaction :=
  some (bc.transactionPool.elems.map fun t =>
    NewTransaction t.senderBlockchainAddress t.recipientBlockchainAddress t.value)

/-- The method `ValidProof`; slicing the 64 hexadecimal digits beyond their end panics.
A negative `difficulty`, on which `strings.Repeat` panics, is excluded by the type. -/
def ValidProof (lib : Lib) (nonce : Int) (previousHash : Hash32)
    (transactions : Slice Transaction) (difficulty : Nat) : Option Bool :=
  let zeros := List.replicate difficulty '0'
  let guessBlock : Block :=
    { timestamp := 0, nonce := nonce, previousHash := previousHash,
      transactions := transactions }
  let guessHashStr := hexChars (guessBlock.Hash lib).val
  if difficulty ≤ guessHashStr.length then
    some (decide (guessHashStr.take difficulty = zeros))
  else none

/-- The loop of `ProofOfWork`, started at `nonce`, with at most `fuel` evaluations of its
condition. -/
def ProofOfWorkLoop (lib : Lib) (previousHash : Hash32) (transactions : Slice Transaction) :
    Nat → Int → Option Int
  | 0, _ => none
  | fuel + 1, nonce =>
    match ValidProof lib nonce previousHash transactions MINING_DIFFICULTY with
    | none => none
    | some true => some nonce
    | some false => ProofOfWorkLoop lib previousHash transactions fuel (wrapInt64 (nonce + 1))

/-- The method `ProofOfWork`, with at most `fuel` evaluations of the loop condition. -/
def ProofOfWork (bc : Blockchain) (lib : Lib) (fuel : Nat) : Option Int :=
  let transactions := bc.CopyTransactionPool
  match bc.LastBlock with
  | none => none
  | some last => ProofOfWorkLoop lib (last.Hash lib) transactions fuel 0

/-- The method `Mining`; `now` is the clock reading taken by `NewBlock`, `fuel` bounds the
proof-of-work loop. -/
def Mining (bc : Blockchain) (lib : Lib) (now : Int) (fuel : Nat) :
    Option (Bool × Blockchain) :=
  if bc.transactionPool.len = 0 then some (false, bc)
  else
    match bc.AddTransaction lib MINING_SENDER bc.blockchainAddress MINING_REWARD none none with
    | none => none
    | some (_, bc1) =>
      match bc1.ProofOfWork lib fuel with
      | none => none
      | some nonce =>
        match bc1.LastBlock with
        | none => none
        | some last => some (true, (bc1.CreateBlock now nonce (last.Hash lib)).2)

/-- The body of the inner loop of `CalculateTotalAmount`: the running total after the
transaction `t` has been looked at. -/
def creditDebit (blockchainAddress : String) (totalAmount : Float32) (t : Transaction) :
    Float32 :=
  let totalAmount :=
    if blockchainAddress = t.recipientBlockchainAddress then totalAmount + t.value
    else totalAmount
  if blockchainAddress = t.senderBlockchainAddress then totalAmount - t.value
  else totalAmount

/-- The method `CalculateTotalAmount`: every block of the chain in order, every
transaction of the block in order, starting from `0.0`. -/
def CalculateTotalAmount (bc : Blockchain) (blockchainAddress : String) : Float32 :=
  bc.chain.foldl (fun totalAmount b =>
    b.transactions.elems.foldl (creditDebit blockchainAddress) totalAmount) Float32.zero

end Blockchain

/-- The constructor `NewBlockchain`: the genesis block is created from the zero-valued
ledger with nonce 0 and the hash of the zero-valued block. -/
def NewBlockchain (lib : Lib) (now : Int) (blockchainAddress : String) (port : Nat) :
    Blockchain :=
  let bc0 : Blockchain := { Blockchain.zeroValue with blockchainAddress := blockchainAddress }
  let bc1 := (bc0.CreateBlock now 0 (Block.zeroValue.Hash lib)).2
  { bc1 with port := port }

/-- The ledger states the program can be in: those built by `NewBlockchain` and then changed
by calls of `AddTransaction`, `CreateTransaction` and `Mining` that return. -/
inductive Reachable (lib : Lib) : Blockchain → Prop where
  | init (now : Int) (blockchainAddress : String) (port : Nat) :
      Reachable lib (NewBlockchain lib now blockchainAddress port)
  | addTransaction {bc bc1 : Blockchain} {ok : Bool} (sender recipient : String)
      (value : Float32) (senderPublicKey : Option ecdsa.PublicKey)
      (s : Option utils.Signature) :
      Reachable lib bc →
      bc.AddTransaction lib sender recipient value senderPublicKey s = some (ok, bc1) →
      Reachable lib bc1
  | createTransaction {bc bc1 : Blockchain} {ok : Bool} (sender recipient : String)
      (value : Float32) (senderPublicKey : Option ecdsa.PublicKey)
      (s : Option utils.Signature) :
      Reachable lib bc →
      bc.CreateTransaction lib sender recipient value senderPublicKey s = some (ok, bc1) →
      Reachable lib bc1
  | mining {bc bc1 : Blockchain} {ok : Bool} (now : Int) (fuel : Nat) :
      Reachable lib bc →
      bc.Mining lib now fuel = some (ok, bc1) →
      Reachable lib bc1

/-- The reward transaction `Mining` enqueues in state `bc`. -/
def Blockchain.rewardTransaction (bc : Blockchain) : Transaction :=
  NewTransaction MINING_SENDER bc.blockchainAddress MINING_REWARD

/-- Every block after the first stores the hash of the block before it. -/
def Linked (lib : Lib) (chain : List Block) : Prop :=
  ∀ (i : Nat) (b p : Block), chain[i + 1]? = some b → chain[i]? = some p →
    b.previousHash = p.Hash lib

end block

/-! ## A small instance of the libraries

The theorems below hold for every `Lib`.  To evaluate the model at concrete inputs the
following stand-in is used: its digest is the sum of the character codes of the text
modulo 4 followed by 31 zero bytes, a signature verifies when it repeats the coordinates
of the key, and a nil argument of the verification panics. -/

/-- An executable stand-in for the imported libraries. -/
def sampleLib : Lib where
  sha256 text := ⟨(text.data.foldl (fun acc c => acc + c.toNat) 0 % 4) :: List.replicate 31 0,
    by simp⟩
  ecdsaVerify pub _ r s := match pub, r, s with
    | some key, some r, some s => some (decide (r = key.X ∧ s = key.Y))
    | _, _, _ => none
  jsonString s := "\"" ++ s ++ "\""
  jsonFloat32 v := match v with
    | Float32.finite neg mant exp =>
      some ((if neg then "-" else "") ++ toString mant ++ "p" ++ toString exp)
    | _ => none

namespace block

/-- A ledger with one admitted transaction waiting in the pool. -/
def sampleLedger : Blockchain :=
  { NewBlockchain sampleLib 0 "miner" 5000 with
    transactionPool := some [NewTransaction "alice" "bob" (Float32.ofNat 1)] }

/-- The genesis block of `sampleLedger`. -/
def sampleGenesis : Block := NewBlock 0 0 (Block.zeroValue.Hash sampleLib) none

/-- The ledger `Mining` leaves when run on `sampleLedger` at clock reading 7. -/
def sampleMined : Blockchain :=
  { sampleLedger with
    chain := sampleLedger.chain ++ [NewBlock 7 3 (sampleGenesis.Hash sampleLib)
      (sampleLedger.transactionPool.append sampleLedger.rewardTransaction)],
    transactionPool := some [] }

/-- The sum, in `float32` arithmetic, of the values of the transactions of `b` received by
`a`, as the linearity claim words it. -/
def receivedIn (b : Block) (a : String) : Float32 :=
  ((b.transactions.elems.filter fun t => a = t.recipientBlockchainAddress).map
    fun t => t.value).foldl (fun x y => x + y) Float32.zero

/-- The sum, in `float32` arithmetic, of the values of the transactions of `b` sent by `a`,
as the linearity claim words it. -/
def sentIn (b : Block) (a : String) : Float32 :=
  ((b.transactions.elems.filter fun t => a = t.senderBlockchainAddress).map
    fun t => t.value).foldl (fun x y => x + y) Float32.zero

/-- A ledger whose only block credits 16777216 (that is `2^24`) to `"carol"`. -/
def roundingLedger : Blockchain :=
  { transactionPool := some [],
    chain := [{ timestamp := 0, nonce := 0, previousHash := ⟨List.replicate 32 0, rfl⟩,
                transactions := some [NewTransaction "dave" "carol" (Float32.ofNat 16777216)] }],
    blockchainAddress := "miner", port := 5000 }

/-- A block with two transfers of 1 to `"carol"`. -/
def roundingBlock : Block :=
  { timestamp := 1, nonce := 0, previousHash := ⟨List.replicate 32 0, rfl⟩,
    transactions := some [NewTransaction "dave" "carol" (Float32.ofNat 1),
                          NewTransaction "dave" "carol" (Float32.ofNat 1)] }

end block

/-! ## Definitions for the invariants of the ledger and the request boundary -/

namespace Float32

/-- Go's `x >= 0` on `float32`: negative zero compares equal to zero and a NaN compares
false with everything. -/
def nonneg : Float32 → Bool
  | finite neg mant _ => !neg || mant == 0
  | inf neg => !neg
  | nan => false

end Float32

namespace block

/-- Every transaction of the pool and of every block of the chain has a value `>= 0`. -/
def Blockchain.ValuesNonneg (bc : Blockchain) : Prop :=
  (∀ t : Transaction, t ∈ bc.transactionPool.elems → t.value.nonneg = true) ∧
  ∀ (b : Block) (t : Transaction), b ∈ bc.chain → t ∈ b.transactions.elems →
    t.value.nonneg = true

/-- The ledger states reachable when the callers of `AddTransaction` and `CreateTransaction`
only ever pass values that `accept` holds of. -/
inductive ReachableWith (lib : Lib) (accept : Float32 → Prop) : Blockchain → Prop where
  | init (now : Int) (blockchainAddress : String) (port : Nat) :
      ReachableWith lib accept (NewBlockchain lib now blockchainAddress port)
  | addTransaction {bc bc1 : Blockchain} {ok : Bool} (sender recipient : String)
      (value : Float32) (senderPublicKey : Option ecdsa.PublicKey)
      (s : Option utils.Signature) :
      ReachableWith lib accept bc → accept value →
      bc.AddTransaction lib sender recipient value senderPublicKey s = some (ok, bc1) →
      ReachableWith lib accept bc1
  | createTransaction {bc bc1 : Blockchain} {ok : Bool} (sender recipient : String)
      (value : Float32) (senderPublicKey : Option ecdsa.PublicKey)
      (s : Option utils.Signature) :
      ReachableWith lib accept bc → accept value →
      bc.CreateTransaction lib sender recipient value senderPublicKey s = some (ok, bc1) →
      ReachableWith lib accept bc1
  | mining {bc bc1 : Blockchain} {ok : Bool} (now : Int) (fuel : Nat) :
      ReachableWith lib accept bc →
      bc.Mining lib now fuel = some (ok, bc1) →
      ReachableWith lib accept bc1

/-- The ledger after a fresh ledger has admitted a signed transfer of `-1.0` from alice to
bob. -/
def negativeLedger : Blockchain :=
  { NewBlockchain sampleLib 0 "miner" 5000 with
    transactionPool := some [NewTransaction "alice" "bob" (-(Float32.ofNat 1))] }

/-- The ledger `Mining` leaves when run on `negativeLedger` at clock reading 7. -/
def negativeMined : Blockchain :=
  { negativeLedger with
    chain := negativeLedger.chain ++ [NewBlock 7 2 (sampleGenesis.Hash sampleLib)
      (negativeLedger.transactionPool.append negativeLedger.rewardTransaction)],
    transactionPool := some [] }

/-- The struct `TransactionRequest` of package `block`: every field is a pointer, `none`
when the request does not supply it. -/
structure TransactionRequest where
  SenderBlockchainAddress : Option String
  RecipientBlockchainAddress : Option String
  SenderPublicKey : Option String
  Value : Option Float32
  Signature : Option String
deriving DecidableEq

/-- The method `TransactionRequest.Validate`. -/
def TransactionRequest.Validate (transactionRequest : TransactionRequest) : Bool :=
  if transactionRequest.SenderBlockchainAddress = none ∨
      transactionRequest.RecipientBlockchainAddress = none ∨
      transactionRequest.SenderPublicKey = none ∨
      transactionRequest.Value = none ∨
      transactionRequest.Signature = none then
    false
  else true

end block

/-! ## Package `wallet` -/

/-- A 20-byte digest, each byte given by its numeric value. -/
abbrev Hash20 := { l : List Nat // l.length = 20 }

namespace ecdsa

/-- The struct `ecdsa.PrivateKey`: the embedded public key and the secret scalar `D`. -/
structure PrivateKey where
  PublicKey : ecdsa.PublicKey
  D : Int
deriving DecidableEq, Repr

end ecdsa

/-- The big-endian bytes of `n` without leading zero bytes; the first argument bounds the
recursion. -/
def natBytesAux : Nat → Nat → List Nat
  | 0, _ => []
  | fuel + 1, n => if n = 0 then [] else natBytesAux fuel (n / 256) ++ [n % 256]

/-- The method `big.Int.Bytes`: the absolute value as a big-endian byte slice, empty for 0. -/
def bigIntBytes (x : Int) : List Nat := natBytesAux x.natAbs x.natAbs

/-- Go's `make([]byte, n)`: `n` zero bytes. -/
def makeBytes (n : Nat) : List Nat := List.replicate n 0

/-- Go's `copy(dst[lo:hi], src)`, as the contents of `dst` afterwards: the first
`min (hi - lo) (len src)` bytes of `src` overwrite `dst` from index `lo` on. -/
def copyBytes (dst : List Nat) (lo hi : Nat) (src : List Nat) : List Nat :=
  dst.take lo ++ src.take (min (hi - lo) src.length) ++
    dst.drop (lo + min (hi - lo) src.length)

/-- The text `fmt.Sprintf("%064x", bytes)`: the hexadecimal digits, padded on the left with
`0` to 64 characters. -/
def hexPadded64 (bytes : List Nat) : List Char :=
  List.replicate (64 - (hexChars bytes).length) '0' ++ hexChars bytes

/-- The functions of imported libraries package `wallet` calls on byte slices: `sha256` is
a `sha256.New()` hash fed the bytes and summed, `ripemd160` likewise, `base58Encode` is
`base58.Encode`, and `ecdsaSign rand priv h` is `ecdsa.Sign` reading the random bytes
`rand` (`none` is a call that panics; its two results may be nil when it reports an error,
which the caller drops). -/
structure WalletLib where
  sha256 : List Nat → Hash32
  ripemd160 : List Nat → Hash20
  base58Encode : List Nat → String
  ecdsaSign : List Nat → Option ecdsa.PrivateKey → Hash32 → Option (Option Int × Option Int)

namespace wallet

/-- The struct `Wallet`; `publicKey` points into `privateKey`. -/
structure Wallet where
  privateKey : ecdsa.PrivateKey
  publicKey : ecdsa.PublicKey
  blockchainAddress : String
deriving DecidableEq, Repr

/-- Steps 2 to 8 of `NewWallet`: the 25-byte buffer `dc8` built from the public key. -/
def addressBytes (wl : WalletLib) (publicKey : ecdsa.PublicKey) : List Nat :=
  -- 2. SHA-256 of the two coordinates
  let digest2 := (wl.sha256 (bigIntBytes publicKey.X ++ bigIntBytes publicKey.Y)).val
  -- 3. RIPEMD-160 of the digest
  let digest3 := (wl.ripemd160 digest2).val
  -- 4. version byte in front
  let vd4 := copyBytes ((makeBytes 21).set 0 0) 1 21 digest3
  -- 5. and 6. SHA-256 twice
  let digest5 := (wl.sha256 vd4).val
  let digest6 := (wl.sha256 digest5).val
  -- 7. first four bytes
  let chsum := digest6.take 4
  -- 8. checksum at the end
  let dc8 := copyBytes (makeBytes 25) 0 21 vd4
  copyBytes dc8 21 25 chsum

/-- The constructor `NewWallet`; `generated` is the key `ecdsa.GenerateKey` returns, nil
when it fails, in which case taking the address of its public key panics. -/
def NewWallet (wl : WalletLib) (generated : Option ecdsa.PrivateKey) : Option Wallet :=
  match generated with
  | none => none
  | some privateKey =>
    some { privateKey := privateKey, publicKey := privateKey.PublicKey,
           blockchainAddress := wl.base58Encode (addressBytes wl privateKey.PublicKey) }

/-- The method `PrivateKeyStr`. -/
def Wallet.PrivateKeyStr (w : Wallet) : String :=
  String.mk (hexChars (bigIntBytes w.privateKey.D))

/-- The method `PublicKeyStr`. -/
def Wallet.PublicKeyStr (w : Wallet) : String :=
  String.mk (hexPadded64 (bigIntBytes w.publicKey.X) ++ hexPadded64 (bigIntBytes w.publicKey.Y))

/-- The method `BlockchainAddress`. -/
def Wallet.BlockchainAddress (w : Wallet) : String := w.blockchainAddress

/-- The struct `Transaction` of package `wallet`. -/
structure Transaction where
  senderPrivateKey : Option ecdsa.PrivateKey
  senderPublicKey : Option ecdsa.PublicKey
  senderBlockchainAddress : String
  recipientBlockchainAddress : String
  value : Float32
deriving DecidableEq, Repr

/-- The constructor `NewTransaction` of package `wallet`. -/
def NewTransaction (privateKey : Option ecdsa.PrivateKey) (publicKey : Option ecdsa.PublicKey)
    (sender recipient : String) (value : Float32) : Transaction :=
  { senderPrivateKey := privateKey, senderPublicKey := publicKey,
    senderBlockchainAddress := sender, recipientBlockchainAddress := recipient,
    value := value }

/-- The method `Transaction.MarshalJSON` of package `wallet`; `none` is the error
`json.Marshal` returns when the value cannot be rendered. -/
def Transaction.MarshalJSON (lib : Lib) (t : Transaction) : Option String :=
  match lib.jsonFloat32 t.value with
  | none => none
  | some value =>
    some ("\x7b\"sender_blockchain_address\":" ++ lib.jsonString t.senderBlockchainAddress ++
      ",\"recipient_blockchain_address\":" ++ lib.jsonString t.recipientBlockchainAddress ++
      ",\"value\":" ++ value ++ "\x7d")

/-- The method `GenerateSignature`; `rand` is what `ecdsa.Sign` reads from `rand.Reader`.
The error of `json.Marshal` is dropped, and with an error `m` is nil. -/
def Transaction.GenerateSignature (wl : WalletLib) (lib : Lib) (rand : List Nat)
    (t : Transaction) : Option utils.Signature :=
  let m := (t.MarshalJSON lib).getD ""
  let h := lib.sha256 m
  match wl.ecdsaSign rand t.senderPrivateKey h with
  | none => none
  | some (r, s) => some { R := r, S := s }

end wallet

/-- An executable stand-in for the libraries of package `wallet`: the digests are the first
bytes of the input, padded with zeros, and a signature repeats the coordinates of the
public key. -/
def sampleWalletLib : WalletLib where
  sha256 bytes := ⟨(bytes ++ List.replicate 32 7).take 32, by simp⟩
  ripemd160 bytes := ⟨(bytes.reverse ++ List.replicate 20 9).take 20, by simp⟩
  base58Encode bytes := String.mk (hexChars bytes)
  ecdsaSign _ priv _ := match priv with
    | none => none
    | some key => some (some key.PublicKey.X, some key.PublicKey.Y)

/-! ## Slices with their backing arrays

`NewBlock` stores the slice header it is given, not a copy of the elements, so a sealed
block and the pool can share a backing array.  The definitions below keep the headers and
the arrays apart: a heap of backing arrays, slice headers that point into it, and the
methods that write the pool (`CreateBlock`, `AddTransaction`, `CreateTransaction`,
`Mining`) acting on headers.  `MemLedger.view` reads a ledger of headers back into the
ledger by value used everywhere else. -/

namespace block

/-- A slice header of type `[]*Transaction`. -/
inductive SliceRef where
  /-- The nil slice. -/
  | nilSlice
  /-- The literal `[]*Transaction{}`: not nil, length and capacity 0, no backing array. -/
  | emptySlice
  /-- The first `len` cells of the backing array number `array`. -/
  | window (array : Nat) (len : Nat)
deriving DecidableEq, Repr

/-- The backing arrays allocated so far; an array is the list of its cells, as long as its
capacity, and a cell holds a pointer to a transaction or nil. -/
abbrev Heap := List (List (Option Transaction))

/-- The cells of backing array number `a`. -/
def Heap.cells (heap : Heap) (a : Nat) : List (Option Transaction) := (heap[a]?).getD []

/-- Go's `len(s)` of a header. -/
def SliceRef.len : SliceRef → Nat
  | .window _ n => n
  | _ => 0

/-- The slice a header denotes in a heap, by value. -/
def SliceRef.read (heap : Heap) : SliceRef → Slice Transaction
  | .nilSlice => none
  | .emptySlice => some []
  | .window a n => some (((heap.cells a).take n).filterMap id)

/-- Go's `append(s, t)`: below capacity the cell after the last is written in place;
otherwise a new array is allocated, with room for `spare` more cells chosen by the
run-time system, and the elements are copied into it. -/
def appendRef (spare : Nat → Nat) (heap : Heap) (s : SliceRef) (t : Transaction) :
    Heap × SliceRef :=
  match s with
  | .window a n =>
    if n < (heap.cells a).length then
      (heap.set a ((heap.cells a).set n (some t)), .window a (n + 1))
    else
      (heap ++ [(heap.cells a).take n ++ [some t] ++ List.replicate (spare n) none],
        .window heap.length (n + 1))
  | _ => (heap ++ [[some t] ++ List.replicate (spare 0) none], .window heap.length 1)

/-- The struct `Block` with its transaction slice as a header. -/
structure MemBlock where
  timestamp : Int
  nonce : Int
  previousHash : Hash32
  transactions : SliceRef
deriving DecidableEq

/-- The struct `Blockchain` with its slices as headers, together with the heap. -/
structure MemLedger where
  heap : Heap
  transactionPool : SliceRef
  chain : List MemBlock
  blockchainAddress : String
  port : Nat
deriving DecidableEq

/-- The block by value that a block of headers denotes in a heap. -/
def MemBlock.view (heap : Heap) (b : MemBlock) : Block :=
  { timestamp := b.timestamp, nonce := b.nonce, previousHash := b.previousHash,
    transactions := b.transactions.read heap }

namespace MemLedger

/-- The ledger by value that a ledger of headers denotes. -/
def view (m : MemLedger) : Blockchain :=
  { transactionPool := m.transactionPool.read m.heap,
    chain := m.chain.map (MemBlock.view m.heap),
    blockchainAddress := m.blockchainAddress, port := m.port }

/-- The method `CreateBlock` on headers: the new block takes the header of the pool, the
pool becomes `[]*Transaction{}`. -/
def CreateBlock (m : MemLedger) (now : Int) (nonce : Int) (previousHash : Hash32) :
    MemLedger :=
  { m with
    chain := m.chain ++ [{ timestamp := now, nonce := nonce, previousHash := previousHash,
                           transactions := m.transactionPool }],
    transactionPool := SliceRef.emptySlice }

/-- The ledger after `blockchain.transactionPool = append(blockchain.transactionPool, t)`. -/
def push (m : MemLedger) (spare : Nat → Nat) (t : Transaction) : MemLedger :=
  { m with
    heap := (appendRef spare m.heap m.transactionPool t).1,
    transactionPool := (appendRef spare m.heap m.transactionPool t).2 }

/-- The method `AddTransaction` on headers. -/
def AddTransaction (m : MemLedger) (lib : Lib) (spare : Nat → Nat) (sender recipient : String)
    (value : Float32) (senderPublicKey : Option ecdsa.PublicKey)
    (s : Option utils.Signature) : Option (Bool × MemLedger) :=
  let t := NewTransaction sender recipient value
  if sender = MINING_SENDER then
    some (true, m.push spare t)
  else
    match Blockchain.VerifyTransactionSignature lib senderPublicKey s t with
    | none => none
    | some true => some (true, m.push spare t)
    | some false => some (false, m)

/-- The method `CreateTransaction` on headers. -/
def CreateTransaction (m : MemLedger) (lib : Lib) (spare : Nat → Nat)
    (sender recipient : String) (value : Float32)
    (senderPublicKey : Option ecdsa.PublicKey) (s : Option utils.Signature) :
    Option (Bool × MemLedger) :=
  m.AddTransaction lib spare sender recipient value senderPublicKey s

/-- The method `Mining` on headers; `ProofOfWork` and `LastBlock().Hash()` only read the
ledger (the copy of the pool that `ProofOfWork` makes is private to it). -/
def Mining (m : MemLedger) (lib : Lib) (spare : Nat → Nat) (now : Int) (fuel : Nat) :
    Option (Bool × MemLedger) :=
  if m.transactionPool.len = 0 then some (false, m)
  else
    match m.AddTransaction lib spare MINING_SENDER m.blockchainAddress MINING_REWARD
        none none with
    | none => none
    | some (_, m1) =>
      match m1.view.ProofOfWork lib fuel with
      | none => none
      | some nonce =>
        match m1.view.LastBlock with
        | none => none
        | some last => some (true, m1.CreateBlock now nonce (last.Hash lib))

end MemLedger

/-- The constructor `NewBlockchain` on headers: no array is allocated, the genesis block
holds the nil slice. -/
def MemNewBlockchain (lib : Lib) (now : Int) (blockchainAddress : String) (port : Nat) :
    MemLedger :=
  let m0 : MemLedger :=
    { heap := [], transactionPool := SliceRef.nilSlice, chain := [],
      blockchainAddress := blockchainAddress, port := 0 }
  { m0.CreateBlock now 0 (Block.zeroValue.Hash lib) with port := port }

/-- The ledgers of headers the program can be in, for a run-time system that chooses spare
capacities by `spare`. -/
inductive MemReachable (lib : Lib) (spare : Nat → Nat) : MemLedger → Prop where
  | init (now : Int) (blockchainAddress : String) (port : Nat) :
      MemReachable lib spare (MemNewBlockchain lib now blockchainAddress port)
  | addTransaction {m m1 : MemLedger} {ok : Bool} (sender recipient : String)
      (value : Float32) (senderPublicKey : Option ecdsa.PublicKey)
      (s : Option utils.Signature) :
      MemReachable lib spare m →
      m.AddTransaction lib spare sender recipient value senderPublicKey s = some (ok, m1) →
      MemReachable lib spare m1
  | createTransaction {m m1 : MemLedger} {ok : Bool} (sender recipient : String)
      (value : Float32) (senderPublicKey : Option ecdsa.PublicKey)
      (s : Option utils.Signature) :
      MemReachable lib spare m →
      m.CreateTransaction lib spare sender recipient value senderPublicKey s = some (ok, m1) →
      MemReachable lib spare m1
  | mining {m m1 : MemLedger} {ok : Bool} (now : Int) (fuel : Nat) :
      MemReachable lib spare m →
      m.Mining lib spare now fuel = some (ok, m1) →
      MemReachable lib spare m1

/-- A header points at an allocated array, stays within its capacity, and the cells it
covers hold transactions. -/
def SliceRef.Valid (heap : Heap) : SliceRef → Prop
  | .window a n => a < heap.length ∧ n ≤ (heap.cells a).length ∧
      ∀ i : Nat, i < n → ∃ t : Transaction, (heap.cells a)[i]? = some (some t)
  | _ => True

/-- The headers of a ledger are valid and no sealed block shares its backing array with the
pool. -/
def MemLedger.Separated (m : MemLedger) : Prop :=
  m.transactionPool.Valid m.heap ∧
  ∀ b : MemBlock, b ∈ m.chain → b.transactions.Valid m.heap ∧
    ∀ a n k : Nat, b.transactions = SliceRef.window a n →
      m.transactionPool ≠ SliceRef.window a k

/-- The run-time system doubles: an array that is full gets as many spare cells as it
holds elements. -/
def doublingSpare (n : Nat) : Nat := n

/-- The ledger of headers after a fresh ledger has admitted alice's transfer: one array of
one cell. -/
def sampleMemPool : MemLedger :=
  { heap := [[some (NewTransaction "alice" "bob" (Float32.ofNat 1))]],
    transactionPool := SliceRef.window 0 1,
    chain := [{ timestamp := 0, nonce := 0, previousHash := Block.zeroValue.Hash sampleLib,
                transactions := SliceRef.nilSlice }],
    blockchainAddress := "miner", port := 5000 }

/-- The ledger of headers after a round of mining on `sampleMemPool` at clock reading 7:
the reward went into a new array of three cells, which the sealed block now points at. -/
def sampleMemLedger : MemLedger :=
  { heap := [[some (NewTransaction "alice" "bob" (Float32.ofNat 1))],
             [some (NewTransaction "alice" "bob" (Float32.ofNat 1)),
              some (NewTransaction MINING_SENDER "miner" MINING_REWARD), none]],
    transactionPool := SliceRef.emptySlice,
    chain := [{ timestamp := 0, nonce := 0, previousHash := Block.zeroValue.Hash sampleLib,
                transactions := SliceRef.nilSlice },
              { timestamp := 7, nonce := 3, previousHash := sampleGenesis.Hash sampleLib,
                transactions := SliceRef.window 1 2 }],
    blockchainAddress := "miner", port := 5000 }

end block

/-! ## SHA-256 and the renderings of `encoding/json`

The theorems hold for every `Lib`.  To run the ledger with the digest the program really
uses, `sha256.Sum256` below is SHA-256 as FIPS 180-4 defines it, over bytes given by their
numeric values, and `shaLib` is the instance of `Lib` built on it. -/

namespace sha256

/-- The round constants: the first 32 bits of the fractional parts of the cube roots of the
first 64 primes. -/
def roundConstants : List Nat := [
  1116352408, 1899447441, 3049323471, 3921009573, 961987163, 1508970993,
  2453635748, 2870763221, 3624381080, 310598401, 607225278, 1426881987,
  1925078388, 2162078206, 2614888103, 3248222580, 3835390401, 4022224774,
  264347078, 604807628, 770255983, 1249150122, 1555081692, 1996064986,
  2554220882, 2821834349, 2952996808, 3210313671, 3336571891, 3584528711,
  113926993, 338241895, 666307205, 773529912, 1294757372, 1396182291,
  1695183700, 1986661051, 2177026350, 2456956037, 2730485921, 2820302411,
  3259730800, 3345764771, 3516065817, 3600352804, 4094571909, 275423344,
  430227734, 506948616, 659060556, 883997877, 958139571, 1322822218,
  1537002063, 1747873779, 1955562222, 2024104815, 2227730452, 2361852424,
  2428436474, 2756734187, 3204031479, 3329325298]

/-- The initial hash value: the first 32 bits of the fractional parts of the square roots
of the first 8 primes. -/
def initialHash : List Nat := [
  1779033703, 3144134277, 1013904242, 2773480762,
  1359893119, 2600822924, 528734635, 1541459225]

/-- Rotation of a 32-bit word to the right by `n` bits. -/
def rotateRight (x n : Nat) : Nat := (x >>> n) ||| ((x <<< (32 - n)) % 2 ^ 32)

/-- Addition modulo `2^32`. -/
def plus (x y : Nat) : Nat := (x + y) % 2 ^ 32

/-- The message schedule, most recent word first: `count` more words are derived from the
words that are there. -/
def extend : Nat → List Nat → List Nat
  | 0, w => w
  | count + 1, w =>
    let w2 := w.getD 1 0
    let w7 := w.getD 6 0
    let w15 := w.getD 14 0
    let w16 := w.getD 15 0
    let s0 := rotateRight w15 7 ^^^ rotateRight w15 18 ^^^ (w15 >>> 3)
    let s1 := rotateRight w2 17 ^^^ rotateRight w2 19 ^^^ (w2 >>> 10)
    extend count (plus (plus (plus w16 s0) w7) s1 :: w)

/-- One round of the compression function on the eight working variables. -/
def step (state : List Nat) (kw : Nat × Nat) : List Nat :=
  match state with
  | [a, b, c, d, e, f, g, h] =>
    let s1 := rotateRight e 6 ^^^ rotateRight e 11 ^^^ rotateRight e 25
    let ch := (e &&& f) ^^^ ((e ^^^ (2 ^ 32 - 1)) &&& g)
    let t1 := plus (plus (plus (plus h s1) ch) kw.1) kw.2
    let s0 := rotateRight a 2 ^^^ rotateRight a 13 ^^^ rotateRight a 22
    let maj := (a &&& b) ^^^ (a &&& c) ^^^ (b &&& c)
    let t2 := plus s0 maj
    [plus t1 t2, a, b, c, plus d t1, e, f, g]
  | _ => state

/-- The big-endian 32-bit words of a list of bytes. -/
def words : List Nat → List Nat
  | a :: b :: c :: d :: rest => (((a * 256 + b) * 256 + c) * 256 + d) :: words rest
  | _ => []

/-- The compression function: the hash value after one more 64-byte block. -/
def compress (hash : List Nat) (block : List Nat) : List Nat :=
  let schedule := (extend 48 (words block).reverse).reverse
  List.zipWith plus hash ((roundConstants.zip schedule).foldl step hash)

/-- The blocks of 64 bytes of a padded message; the first argument bounds the recursion. -/
def blocks : Nat → List Nat → List (List Nat)
  | 0, _ => []
  | fuel + 1, l => if l = [] then [] else l.take 64 :: blocks fuel (l.drop 64)

/-- The `width` low bytes of `n`, most significant first. -/
def bigEndian (n : Nat) : Nat → List Nat
  | 0 => []
  | width + 1 => bigEndian (n / 256) width ++ [n % 256]

/-- The padded message: a bit 1, zeros up to 56 modulo 64 bytes, the length in bits. -/
def pad (message : List Nat) : List Nat :=
  message ++ [128] ++ List.replicate ((119 - message.length % 64) % 64) 0 ++
    bigEndian (8 * message.length) 8

/-- The function `sha256.Sum256`: the 32 bytes of the digest. -/
def Sum256 (message : List Nat) : List Nat :=
  ((blocks (pad message).length (pad message)).foldl compress initialHash).flatMap
    fun word => bigEndian word 4

end sha256

/-- The UTF-8 bytes of a sequence of characters. -/
def utf8Bytes : List Char → List Nat
  | [] => []
  | c :: cs =>
    (if c.toNat < 128 then [c.toNat]
     else if c.toNat < 2048 then [192 + c.toNat / 64, 128 + c.toNat % 64]
     else if c.toNat < 65536 then
       [224 + c.toNat / 4096, 128 + c.toNat / 64 % 64, 128 + c.toNat % 64]
     else
       [240 + c.toNat / 262144, 128 + c.toNat / 4096 % 64, 128 + c.toNat / 64 % 64,
        128 + c.toNat % 64]) ++ utf8Bytes cs

/-- What `encoding/json` writes for one character of a string: a backslash before the
quote and the backslash, `\b`, `\f`, `\n`, `\r`, `\t`, and `\u00xx` for the other
control characters; with the HTML escaping that `json.Marshal` has on, `\u003c`,
`\u003e`, `\u0026` for the angle brackets and the ampersand, and `\u2028`, `\u2029`
for the two line separators. -/
def jsonEscapeChar (c : Char) : List Char :=
  if c.toNat = 34 ∨ c.toNat = 92 then [Char.ofNat 92, c]
  else if c.toNat = 8 then [Char.ofNat 92, Char.ofNat 98]
  else if c.toNat = 12 then [Char.ofNat 92, Char.ofNat 102]
  else if c.toNat = 10 then [Char.ofNat 92, Char.ofNat 110]
  else if c.toNat = 13 then [Char.ofNat 92, Char.ofNat 114]
  else if c.toNat = 9 then [Char.ofNat 92, Char.ofNat 116]
  else if c.toNat < 32 ∨ c.toNat = 60 ∨ c.toNat = 62 ∨ c.toNat = 38 then
    [Char.ofNat 92, Char.ofNat 117, Char.ofNat 48, Char.ofNat 48] ++ hexByte c.toNat
  else if c.toNat = 8232 ∨ c.toNat = 8233 then
    [Char.ofNat 92, Char.ofNat 117] ++ hexByte (c.toNat / 256) ++ hexByte (c.toNat % 256)
  else [c]

/-- The rendering `encoding/json` gives a `string`. -/
def jsonQuote (s : String) : String :=
  String.mk ([Char.ofNat 34] ++ s.data.flatMap jsonEscapeChar ++ [Char.ofNat 34])

/-- The search of `strconv` for the shortest decimal that reads back as the same `float32`.
The value and the two ends of the interval of the reals that round to it are
`value / denom`, `lower / denom` and `upper / denom`; the ends themselves round to it when
`inclusive`.  From the decimal position `q` downwards, the first position at which the
value cut off after that position, or the next decimal above it, lies in the interval gives
the digits: the nearer of the two when both do, the even one in a tie.  The result is the
pair of the digits, as a number, and the position: the decimal is `digits * 10 ^ q`. -/
def shortestDecimal (lower value upper denom : Nat) (inclusive : Bool) :
    Nat → Int → Nat × Int
  | 0, q => (0, q)
  | fuel + 1, q =>
    let t := 10 ^ (-q).toNat
    let scale := 10 ^ q.toNat * denom
    let down := value * t / scale
    let okDown := (down != 0) &&
      (decide (lower * t < down * scale) || (inclusive && lower * t == down * scale))
    let okUp := (down * scale != value * t) &&
      (decide ((down + 1) * scale < upper * t) ||
        (inclusive && (down + 1) * scale == upper * t))
    if okDown && okUp then
      if 2 * value * t < (2 * down + 1) * scale then (down, q)
      else if (2 * down + 1) * scale < 2 * value * t then (down + 1, q)
      else (if down % 2 = 0 then down else down + 1, q)
    else if okDown then (down, q)
    else if okUp then (down + 1, q)
    else shortestDecimal lower value upper denom inclusive fuel (q - 1)

/-- The shortest decimal of the positive `float32` value `mant * 2 ^ exp`.  The interval
ends halfway to the neighbours: the lower neighbour is half as far when `mant` is the
smallest mantissa of its exponent and that exponent is not the least. -/
def shortestFloat32 (mant : Nat) (exp : Int) : Nat × Int :=
  shortestDecimal
    ((4 * mant - (if mant = 2 ^ 23 ∧ exp ≠ -149 then 1 else 2)) * 2 ^ (exp - 2).toNat)
    (4 * mant * 2 ^ (exp - 2).toNat)
    ((4 * mant + 2) * 2 ^ (exp - 2).toNat)
    (2 ^ (2 - exp).toNat) (mant % 2 == 0) 200 39

/-- Whether `m1 * 2 ^ e1 < m2 * 2 ^ e2`. -/
def scaledLess (m1 : Nat) (e1 : Int) (m2 : Nat) (e2 : Int) : Bool :=
  decide (m1 * 2 ^ (e1 - min e1 e2).toNat < m2 * 2 ^ (e2 - min e1 e2).toNat)

/-- The rendering `encoding/json` gives a `float32`: the shortest decimal that reads back
as the same `float32`, written out in full, or, for a magnitude below `float32(1e-6)` or
from `float32(1e21)` on, with an exponent (`e-7`, `e+21`); zero is `0` or `-0`; NaN and
the infinities are the unsupported values. -/
def jsonFloat32Text : Float32 → Option String
  | Float32.finite neg mant exp =>
    if mant = 0 then some ((if neg then "-" else "") ++ "0")
    else
      let digits := (toString (shortestFloat32 mant exp).1).data
      let q := (shortestFloat32 mant exp).2
      let point : Int := digits.length + q
      let text :=
        if scaledLess mant exp 8796093 (-43) || !(scaledLess mant exp 14210855 46) then
          String.mk (digits.take 1 ++ (if 1 < digits.length then '.' :: digits.drop 1 else []))
            ++ (if point - 1 < 0 then "e-" ++ toString (1 - point)
                else "e+" ++ (if point - 1 < 10 then "0" else "") ++ toString (point - 1))
        else if 0 ≤ q then String.mk (digits ++ List.replicate q.toNat '0')
        else if 0 < point then
          String.mk (digits.take point.toNat ++ '.' :: digits.drop point.toNat)
        else "0." ++ String.mk (List.replicate (-point).toNat '0' ++ digits)
      some ((if neg then "-" else "") ++ text)
  | _ => none

/-- The instance of the libraries with the SHA-256 of the program and the JSON renderings
of `encoding/json` of strings and of `float32` values.  The digest always has 32 bytes;
`take 32` records that in the type.  Signatures are not evaluated by this instance: every
call of the verification is one that does not return. -/
def shaLib : Lib where
  sha256 text := ⟨(sha256.Sum256 (utf8Bytes text.data) ++ List.replicate 32 0).take 32,
    by simp⟩
  ecdsaVerify _ _ _ _ := none
  jsonString := jsonQuote
  jsonFloat32 := jsonFloat32Text

namespace block

/-- A ledger created at the clock reading 1700000000000001319 with alice's transfer of 1.0
to bob waiting in the pool. -/
def shaLedger : Blockchain :=
  { NewBlockchain shaLib 1700000000000001319 "miner" 5000 with
    transactionPool := some [NewTransaction "alice" "bob" (Float32.ofNat 1)] }

/-- The genesis block of `shaLedger`. -/
def shaGenesis : Block :=
  NewBlock 1700000000000001319 0 (Block.zeroValue.Hash shaLib) none

/-- The ledger `Mining` leaves when run on `shaLedger` twenty seconds later, at the clock
reading 1700000020000001319. -/
def shaMined : Blockchain :=
  { shaLedger with
    chain := shaLedger.chain ++ [NewBlock 1700000020000001319 0 (shaGenesis.Hash shaLib)
      (shaLedger.transactionPool.append shaLedger.rewardTransaction)],
    transactionPool := some [] }

/-- The ledger after a fresh ledger has admitted a transfer of NaN to bob in the name of
`MINING_SENDER`. -/
def nanLedger : Blockchain :=
  { NewBlockchain shaLib 1700000000000001319 "miner" 5000 with
    transactionPool := some [NewTransaction MINING_SENDER "bob" Float32.nan] }

/-- The zero-valued ledger `new(Blockchain)` after it has admitted a transfer of 1.0 to bob
in the name of `MINING_SENDER`: its chain is empty, its pool is not. -/
def unchainedLedger : Blockchain :=
  { Blockchain.zeroValue with
    transactionPool := some [NewTransaction MINING_SENDER "bob" (Float32.ofNat 1)] }

end block

/-! ## Auxiliary facts -/

theorem hexChars_length (l : List Nat) : (hexChars l).length = 2 * l.length := by
  induction l with
  | nil => rfl
  | cons b bs ih => simp [hexChars, hexByte, ih]; omega

theorem wrapInt64_of_range {x : Int} (h0 : -(2 ^ 63) ≤ x) (h1 : x < 2 ^ 63) :
    wrapInt64 x = x := by
  unfold wrapInt64
  omega

set_option maxRecDepth 100000 in
/-- Adding 1.0 to 0.0 gives 1.0 exactly. -/
theorem Float32_zero_add_one : Float32.zero + Float32.ofNat 1 = Float32.ofNat 1 := by
  decide

set_option maxRecDepth 100000 in
/-- Adding the reward to 0.0 gives the reward exactly. -/
theorem zero_add_MINING_REWARD :
    Float32.zero + block.MINING_REWARD = block.MINING_REWARD := by
  decide

namespace block

theorem Slice_elems_append {α : Type} (s : Slice α) (x : α) :
    (s.append x).elems = s.elems ++ [x] := rfl

theorem Slice_len_append {α : Type} (s : Slice α) (x : α) :
    (s.append x).len = s.len + 1 := by
  simp [Slice.len, Slice.append, Slice.elems]

namespace Blockchain

/-- At the difficulty of the program `ValidProof` never panics: the digest has 64 digits. -/
theorem ValidProof_isSome (lib : Lib) (nonce : Int) (previousHash : Hash32)
    (transactions : Slice Transaction) :
    ValidProof lib nonce previousHash transactions MINING_DIFFICULTY = some true ∨
    ValidProof lib nonce previousHash transactions MINING_DIFFICULTY = some false := by
  have hlen : MINING_DIFFICULTY ≤ (hexChars (Block.Hash lib
      { timestamp := 0, nonce := nonce, previousHash := previousHash,
        transactions := transactions }).val).length := by
    rw [hexChars_length, (Block.Hash lib _).property]; decide
  unfold ValidProof
  simp only [hlen, if_true]
  by_cases h : List.take MINING_DIFFICULTY (hexChars (Block.Hash lib
      { timestamp := 0, nonce := nonce, previousHash := previousHash,
        transactions := transactions }).val) = List.replicate MINING_DIFFICULTY '0'
  · left; simp [h]
  · right; simp [h]

/-- `CopyTransactionPool` yields the elements of the pool, by value. -/
theorem CopyTransactionPool_eq (bc : Blockchain) :
    bc.CopyTransactionPool = some bc.transactionPool.elems := by
  unfold CopyTransactionPool
  congr 1
  conv_rhs => rw [← List.map_id bc.transactionPool.elems]
  rfl

/-- A result of the loop is a valid nonce. -/
theorem ProofOfWorkLoop_valid (lib : Lib) (previousHash : Hash32)
    (transactions : Slice Transaction) (fuel : Nat) (start n : Int)
    (h : ProofOfWorkLoop lib previousHash transactions fuel start = some n) :
    ValidProof lib n previousHash transactions MINING_DIFFICULTY = some true := by
  induction fuel generalizing start with
  | zero => simp [ProofOfWorkLoop] at h
  | succ fuel ih =>
    unfold ProofOfWorkLoop at h
    rcases ValidProof_isSome lib start previousHash transactions with hv | hv
    · rw [hv] at h
      simp only [Option.some.injEq] at h
      rw [← h]; exact hv
    · rw [hv] at h
      exact ih _ h

/-- The loop started at `start` finds the first valid nonce at or after `start`, as soon as
the fuel covers the distance, provided a valid nonce exists below `2^63`. -/
theorem ProofOfWorkLoop_first (lib : Lib) (previousHash : Hash32)
    (transactions : Slice Transaction) (d : Nat) (start n0 : Int)
    (hstart : 0 ≤ start) (hle : start ≤ n0) (hd : n0 - start = d) (hmax : n0 < 2 ^ 63)
    (hvalid : ValidProof lib n0 previousHash transactions MINING_DIFFICULTY = some true) :
    ∃ n : Int, start ≤ n ∧ n ≤ n0 ∧
      ValidProof lib n previousHash transactions MINING_DIFFICULTY = some true ∧
      (∀ m : Int, start ≤ m → m < n →
        ValidProof lib m previousHash transactions MINING_DIFFICULTY = some false) ∧
      ∀ fuel : Nat, (n - start).toNat + 1 ≤ fuel →
        ProofOfWorkLoop lib previousHash transactions fuel start = some n := by
  induction d generalizing start with
  | zero =>
    have hs : start = n0 := by omega
    subst hs
    refine ⟨start, le_refl _, le_refl _, hvalid, fun m h1 h2 => by omega, ?_⟩
    intro fuel hfuel
    obtain ⟨k, rfl⟩ : ∃ k, fuel = k + 1 := ⟨fuel - 1, by omega⟩
    simp [ProofOfWorkLoop, hvalid]
  | succ d ih =>
    rcases ValidProof_isSome lib start previousHash transactions with hv | hv
    · refine ⟨start, le_refl _, hle, hv, fun m h1 h2 => by omega, ?_⟩
      intro fuel hfuel
      obtain ⟨k, rfl⟩ : ∃ k, fuel = k + 1 := ⟨fuel - 1, by omega⟩
      simp [ProofOfWorkLoop, hv]
    · obtain ⟨n, h1, h2, h3, h4, h5⟩ :=
        ih (start + 1) (by omega) (by omega) (by omega)
      refine ⟨n, by omega, h2, h3, ?_, ?_⟩
      · intro m hm1 hm2
        by_cases hm : m = start
        · rw [hm]; exact hv
        · exact h4 m (by omega) hm2
      · intro fuel hfuel
        obtain ⟨k, rfl⟩ : ∃ k, fuel = k + 1 := ⟨fuel - 1, by omega⟩
        have hw : wrapInt64 (start + 1) = start + 1 :=
          wrapInt64_of_range (by omega) (by omega)
        simp only [ProofOfWorkLoop, hv, hw]
        exact h5 k (by omega)

/-- On a non-empty pool `Mining` enqueues the reward, searches the nonce against the hash of
the last block and seals the pool into a new block. -/
theorem Mining_of_nonempty (bc : Blockchain) (lib : Lib) (now : Int) (fuel : Nat)
    (hpool : bc.transactionPool.len ≠ 0) :
    bc.Mining lib now fuel =
      match bc.LastBlock with
      | none => none
      | some last =>
        match ProofOfWorkLoop lib (last.Hash lib)
          (some (bc.transactionPool.elems ++ [bc.rewardTransaction])) fuel 0 with
        | none => none
        | some nonce =>
          some (true, { bc with
            chain := bc.chain ++ [NewBlock now nonce (last.Hash lib)
              (bc.transactionPool.append bc.rewardTransaction)],
            transactionPool := some [] }) := by
  unfold Mining
  rw [if_neg hpool]
  simp only [AddTransaction, if_true, ProofOfWork, CopyTransactionPool_eq, LastBlock]
  cases bc.chain.getLast? with
  | none => rfl
  | some last =>
    simp only [Slice_elems_append, rewardTransaction]
    generalize ProofOfWorkLoop lib (last.Hash lib)
      (some (bc.transactionPool.elems ++
        [NewTransaction MINING_SENDER bc.blockchainAddress MINING_REWARD])) fuel 0 = r
    cases r <;> rfl

/-- A successful round of `Mining`, taken apart. -/
theorem Mining_true_inv (bc bc1 : Blockchain) (lib : Lib) (now : Int) (fuel : Nat)
    (h : bc.Mining lib now fuel = some (true, bc1)) :
    bc.transactionPool.len ≠ 0 ∧ ∃ (last : Block) (nonce : Int),
      bc.LastBlock = some last ∧
      ProofOfWorkLoop lib (last.Hash lib)
        (some (bc.transactionPool.elems ++ [bc.rewardTransaction])) fuel 0 = some nonce ∧
      bc1 = { bc with
        chain := bc.chain ++ [NewBlock now nonce (last.Hash lib)
          (bc.transactionPool.append bc.rewardTransaction)],
        transactionPool := some [] } := by
  by_cases hpool : bc.transactionPool.len = 0
  · simp [Mining, hpool] at h
  · refine ⟨hpool, ?_⟩
    rw [Mining_of_nonempty bc lib now fuel hpool] at h
    cases hl : bc.LastBlock with
    | none => rw [hl] at h; simp at h
    | some last =>
      rw [hl] at h
      simp only at h
      cases hp : ProofOfWorkLoop lib (last.Hash lib)
        (some (bc.transactionPool.elems ++ [bc.rewardTransaction])) fuel 0 with
      | none => rw [hp] at h; simp at h
      | some nonce =>
        rw [hp] at h
        simp only [Option.some.injEq, Prod.mk.injEq, true_and] at h
        exact ⟨last, nonce, rfl, hp, h.symm⟩

/-- When the puzzle posed by the pool and the reward has a solution, `Mining` returns true
for every sufficient fuel, sealing the first valid nonce. -/
theorem Mining_succeeds (bc : Blockchain) (lib : Lib) (now : Int) (last : Block)
    (hpool : bc.transactionPool.len ≠ 0) (hlast : bc.LastBlock = some last)
    (hsolvable : ∃ n : Int, 0 ≤ n ∧ n < 2 ^ 63 ∧
      ValidProof lib n (last.Hash lib)
        (some (bc.transactionPool.elems ++ [bc.rewardTransaction]))
        MINING_DIFFICULTY = some true) :
    ∃ (nonce : Int) (fuel0 : Nat), ∀ fuel : Nat, fuel0 ≤ fuel →
      bc.Mining lib now fuel = some (true, { bc with
        chain := bc.chain ++ [NewBlock now nonce (last.Hash lib)
          (bc.transactionPool.append bc.rewardTransaction)],
        transactionPool := some [] }) := by
  obtain ⟨n0, h0, hmax, hvalid⟩ := hsolvable
  obtain ⟨n, _, _, _, _, hloop⟩ :=
    ProofOfWorkLoop_first lib (last.Hash lib)
      (some (bc.transactionPool.elems ++ [bc.rewardTransaction])) (n0 - 0).toNat 0 n0
      (le_refl _) h0 (by omega) hmax hvalid
  refine ⟨n, (n - 0).toNat + 1, fun fuel hfuel => ?_⟩
  rw [Mining_of_nonempty bc lib now fuel hpool, hlast]
  simp only [hloop fuel hfuel]

/-- A round of `Mining` that returns false leaves the ledger as it was. -/
theorem Mining_false_inv (bc bc1 : Blockchain) (lib : Lib) (now : Int) (fuel : Nat)
    (h : bc.Mining lib now fuel = some (false, bc1)) : bc1 = bc := by
  by_cases hpool : bc.transactionPool.len = 0
  · simp [Mining, hpool] at h
    exact h.symm
  · rw [Mining_of_nonempty bc lib now fuel hpool] at h
    cases hl : bc.LastBlock with
    | none => rw [hl] at h; simp at h
    | some last =>
      rw [hl] at h
      simp only at h
      cases hp : ProofOfWorkLoop lib (last.Hash lib)
        (some (bc.transactionPool.elems ++ [bc.rewardTransaction])) fuel 0 with
      | none => rw [hp] at h; simp at h
      | some nonce => rw [hp] at h; simp at h

/-- What `AddTransaction` returns: either the ledger with the transaction at the end of the
pool, or the ledger untouched. -/
theorem AddTransaction_inv (bc bc1 : Blockchain) (lib : Lib) (sender recipient : String)
    (value : Float32) (senderPublicKey : Option ecdsa.PublicKey) (s : Option utils.Signature)
    (ok : Bool)
    (h : bc.AddTransaction lib sender recipient value senderPublicKey s = some (ok, bc1)) :
    (ok = true ∧ bc1 = { bc with transactionPool :=
        bc.transactionPool.append (NewTransaction sender recipient value) }) ∨
    (ok = false ∧ bc1 = bc) := by
  unfold AddTransaction at h
  by_cases hs : sender = MINING_SENDER
  · simp only [hs, if_true, Option.some.injEq, Prod.mk.injEq] at h
    left
    exact ⟨h.1.symm, by rw [← h.2, hs]⟩
  · simp only [hs, if_false] at h
    cases hv : VerifyTransactionSignature lib senderPublicKey s
        (NewTransaction sender recipient value) with
    | none => rw [hv] at h; simp at h
    | some b =>
      rw [hv] at h
      cases b with
      | true =>
        simp only [Option.some.injEq, Prod.mk.injEq] at h
        exact Or.inl ⟨h.1.symm, h.2.symm⟩
      | false =>
        simp only [Option.some.injEq, Prod.mk.injEq] at h
        exact Or.inr ⟨h.1.symm, h.2.symm⟩

/-- `AddTransaction` never touches the chain. -/
theorem AddTransaction_chain (bc bc1 : Blockchain) (lib : Lib) (sender recipient : String)
    (value : Float32) (senderPublicKey : Option ecdsa.PublicKey) (s : Option utils.Signature)
    (ok : Bool)
    (h : bc.AddTransaction lib sender recipient value senderPublicKey s = some (ok, bc1)) :
    bc1.chain = bc.chain := by
  rcases AddTransaction_inv bc bc1 lib sender recipient value senderPublicKey s ok h with
    ⟨_, h1⟩ | ⟨_, h1⟩ <;> rw [h1]

end Blockchain

/-- Appending a block that stores the hash of the last block keeps the chain linked. -/
theorem Linked_concat (lib : Lib) (chain : List Block) (last b : Block)
    (hlinked : Linked lib chain) (hlast : chain.getLast? = some last)
    (hb : b.previousHash = last.Hash lib) : Linked lib (chain ++ [b]) := by
  intro i x p hx hp
  have hne : chain ≠ [] := by
    intro h0; rw [h0] at hlast; simp at hlast
  have hpos : 0 < chain.length := List.length_pos.mpr hne
  by_cases hi : i + 1 < chain.length
  · rw [List.getElem?_append_left hi] at hx
    rw [List.getElem?_append_left (by omega)] at hp
    exact hlinked i x p hx hp
  · by_cases hi2 : i + 1 = chain.length
    · rw [hi2, List.getElem?_concat_length] at hx
      rw [List.getElem?_append_left (by omega)] at hp
      rw [List.getLast?_eq_getElem?] at hlast
      have hidx : chain.length - 1 = i := by omega
      rw [hidx, hp] at hlast
      simp only [Option.some.injEq] at hx hlast
      rw [← hx, hlast]; exact hb
    · have hnone : (chain ++ [b])[i + 1]? = none := by
        apply List.getElem?_eq_none
        simp; omega
      rw [hnone] at hx
      simp at hx

end block

/-! ## Mining -/

open block

/-- C1 as the code has it: for every ledger state whose pool is non-empty, whose chain has
a last block, and whose puzzle has a solution among the non-negative `int` values (some
nonce passes `ValidProof` against the hash of the last block and the pool followed by the
reward), `Mining` returns true once the loop is given enough iterations, leaves the pool
empty and the chain exactly one block longer, all earlier blocks unchanged and in the same
positions. -/
theorem Mining_seals_nonempty_pool (lib : Lib) (bc : Blockchain) (now : Int) (last : Block)
    (hpool : bc.transactionPool.len ≠ 0) (hlast : bc.LastBlock = some last)
    (hsolvable : ∃ n : Int, 0 ≤ n ∧ n < 2 ^ 63 ∧
      Blockchain.ValidProof lib n (last.Hash lib)
        (some (bc.transactionPool.elems ++ [bc.rewardTransaction]))
        MINING_DIFFICULTY = some true) :
    ∃ (bc1 : Blockchain) (fuel0 : Nat),
      (∀ fuel : Nat, fuel0 ≤ fuel → bc.Mining lib now fuel = some (true, bc1)) ∧
      bc1.transactionPool.len = 0 ∧
      bc1.chain.length = bc.chain.length + 1 ∧
      (∀ i : Nat, i < bc.chain.length → bc1.chain[i]? = bc.chain[i]?) ∧
      bc1.chain.take bc.chain.length = bc.chain := by
  obtain ⟨nonce, fuel0, hrun⟩ := Blockchain.Mining_succeeds bc lib now last hpool hlast hsolvable
  refine ⟨_, fuel0, hrun, rfl, by simp, ?_, by simp⟩
  intro i hi
  simp [List.getElem?_append_left hi]

set_option maxRecDepth 100000 in
/-- C1 as the code has it, at `sampleLedger`: one transaction in the pool, nonce 3 solves
the puzzle. -/
theorem Mining_seals_nonempty_pool_witness :
    sampleLedger.transactionPool.len ≠ 0 ∧
    ∃ (bc1 : Blockchain) (fuel0 : Nat),
      (∀ fuel : Nat, fuel0 ≤ fuel → sampleLedger.Mining sampleLib 7 fuel = some (true, bc1)) ∧
      bc1.transactionPool.len = 0 ∧
      bc1.chain.length = sampleLedger.chain.length + 1 ∧
      (∀ i : Nat, i < sampleLedger.chain.length → bc1.chain[i]? = sampleLedger.chain[i]?) ∧
      bc1.chain.take sampleLedger.chain.length = sampleLedger.chain :=
  ⟨by decide,
   Mining_seals_nonempty_pool sampleLib sampleLedger 7 sampleGenesis (by decide) rfl
    ⟨3, by decide, by decide, by decide⟩⟩

/-- C2: for every ledger state with a non-empty pool and address `L` (a chain with a last
block and a solvable puzzle), the block appended by `Mining` holds exactly the transactions
of the pool at the start of the round, in their order and by value, followed by exactly one
reward transaction `(MINING_SENDER, L, MINING_REWARD)` as the last element. -/
theorem Mining_block_contents (lib : Lib) (bc : Blockchain) (now : Int) (last : Block)
    (hpool : bc.transactionPool.len ≠ 0) (hlast : bc.LastBlock = some last)
    (hsolvable : ∃ n : Int, 0 ≤ n ∧ n < 2 ^ 63 ∧
      Blockchain.ValidProof lib n (last.Hash lib)
        (some (bc.transactionPool.elems ++ [bc.rewardTransaction]))
        MINING_DIFFICULTY = some true) :
    ∃ (bc1 : Blockchain) (b : Block) (fuel0 : Nat),
      (∀ fuel : Nat, fuel0 ≤ fuel → bc.Mining lib now fuel = some (true, bc1)) ∧
      bc1.chain = bc.chain ++ [b] ∧
      b.transactions.elems = bc.transactionPool.elems ++
        [{ senderBlockchainAddress := MINING_SENDER,
           recipientBlockchainAddress := bc.blockchainAddress,
           value := MINING_REWARD }] ∧
      b.transactions.elems.length = bc.transactionPool.len + 1 ∧
      b.transactions.elems.take bc.transactionPool.len = bc.transactionPool.elems := by
  obtain ⟨nonce, fuel0, hrun⟩ := Blockchain.Mining_succeeds bc lib now last hpool hlast hsolvable
  refine ⟨_, _, fuel0, hrun, rfl, rfl, ?_, ?_⟩
  · simp [NewBlock, Slice_elems_append, Slice.len]
  · simp [NewBlock, Slice_elems_append, Slice.len]

set_option maxRecDepth 100000 in
/-- C2 at `sampleLedger`: the sealed block holds alice's transfer, then the reward. -/
theorem Mining_block_contents_witness :
    ∃ (bc1 : Blockchain) (b : Block) (fuel0 : Nat),
      (∀ fuel : Nat, fuel0 ≤ fuel → sampleLedger.Mining sampleLib 7 fuel = some (true, bc1)) ∧
      bc1.chain = sampleLedger.chain ++ [b] ∧
      b.transactions.elems = sampleLedger.transactionPool.elems ++
        [{ senderBlockchainAddress := MINING_SENDER,
           recipientBlockchainAddress := sampleLedger.blockchainAddress,
           value := MINING_REWARD }] ∧
      b.transactions.elems.length = sampleLedger.transactionPool.len + 1 ∧
      b.transactions.elems.take sampleLedger.transactionPool.len =
        sampleLedger.transactionPool.elems :=
  Mining_block_contents sampleLib sampleLedger 7 sampleGenesis (by decide) rfl
    ⟨3, by decide, by decide, by decide⟩

/-- C3: for every ledger state whose pool is empty, `Mining` returns false, whatever the
clock and the loop budget, and the ledger it leaves is the ledger it found: chain, pool and
address are unchanged, so no reward is enqueued and no block appended. -/
theorem Mining_empty_pool_unchanged (lib : Lib) (bc : Blockchain) (now : Int) (fuel : Nat)
    (hpool : bc.transactionPool.len = 0) :
    bc.Mining lib now fuel = some (false, bc) := by
  simp [Blockchain.Mining, hpool]

/-- C3 at a fresh ledger, whose pool is empty: mining, even without any loop budget,
returns false and leaves the fresh ledger. -/
theorem Mining_empty_pool_unchanged_witness :
    (NewBlockchain sampleLib 0 "miner" 5000).transactionPool.len = 0 ∧
    (NewBlockchain sampleLib 0 "miner" 5000).Mining sampleLib 7 0 =
      some (false, NewBlockchain sampleLib 0 "miner" 5000) :=
  ⟨rfl, Mining_empty_pool_unchanged sampleLib (NewBlockchain sampleLib 0 "miner" 5000) 7 0 rfl⟩

/-- C7: after a successful `Mining` call the chain is the old chain followed by one new
block, and the `previousHash` of that block is the `Hash()` of the block that was last
immediately before the call. -/
theorem Mining_links_previousHash (lib : Lib) (bc bc1 : Blockchain) (now : Int) (fuel : Nat)
    (h : bc.Mining lib now fuel = some (true, bc1)) :
    ∃ (last b : Block), bc.LastBlock = some last ∧ bc1.chain = bc.chain ++ [b] ∧
      bc1.LastBlock = some b ∧ b.previousHash = last.Hash lib := by
  obtain ⟨_, last, nonce, hlast, _, hbc1⟩ := Blockchain.Mining_true_inv bc bc1 lib now fuel h
  refine ⟨last, _, hlast, by rw [hbc1], ?_, rfl⟩
  rw [hbc1]
  simp [Blockchain.LastBlock]

set_option maxRecDepth 100000 in
/-- C7 at `sampleLedger`: the round succeeds within four iterations and the new block
points at the genesis block. -/
theorem Mining_links_previousHash_witness :
    sampleLedger.Mining sampleLib 7 4 = some (true, sampleMined) ∧
    ∃ (last b : Block), sampleLedger.LastBlock = some last ∧
      sampleMined.chain = sampleLedger.chain ++ [b] ∧
      sampleMined.LastBlock = some b ∧ b.previousHash = last.Hash sampleLib :=
  ⟨by decide, Mining_links_previousHash sampleLib sampleLedger sampleMined 7 4 (by decide)⟩

/-! ## Proof of work -/

/-- C8: for every ledger state (with a last block) in which some non-negative nonce of the
`int` range satisfies `ValidProof(nonce, LastBlock().Hash(), copy of the pool,
MINING_DIFFICULTY)`, `ProofOfWork` terminates (it returns the same nonce for every
sufficient loop budget) and the nonce `n` it returns is the smallest: `n` is non-negative
and satisfies `ValidProof`, and no `m` with `0 ≤ m < n` does. -/
theorem ProofOfWork_smallest_nonce (lib : Lib) (bc : Blockchain) (last : Block)
    (hlast : bc.LastBlock = some last)
    (hsolvable : ∃ n0 : Int, 0 ≤ n0 ∧ n0 < 2 ^ 63 ∧
      Blockchain.ValidProof lib n0 (last.Hash lib) bc.CopyTransactionPool
        MINING_DIFFICULTY = some true) :
    ∃ (n : Int) (fuel0 : Nat),
      (∀ fuel : Nat, fuel0 ≤ fuel → bc.ProofOfWork lib fuel = some n) ∧
      0 ≤ n ∧
      Blockchain.ValidProof lib n (last.Hash lib) bc.CopyTransactionPool
        MINING_DIFFICULTY = some true ∧
      ∀ m : Int, 0 ≤ m → m < n →
        Blockchain.ValidProof lib m (last.Hash lib) bc.CopyTransactionPool
          MINING_DIFFICULTY = some false := by
  obtain ⟨n0, h0, hmax, hvalid⟩ := hsolvable
  obtain ⟨n, hn0, _, hv, hmin, hloop⟩ :=
    Blockchain.ProofOfWorkLoop_first lib (last.Hash lib) bc.CopyTransactionPool
      (n0 - 0).toNat 0 n0 (le_refl _) h0 (by omega) hmax hvalid
  refine ⟨n, (n - 0).toNat + 1, fun fuel hfuel => ?_, hn0, hv, hmin⟩
  simp only [Blockchain.ProofOfWork, hlast]
  exact hloop fuel hfuel

set_option maxRecDepth 100000 in
/-- C8 at the ledger that holds alice's transfer and the reward: nonce 7 is a solution, so
the search returns the smallest one. -/
theorem ProofOfWork_smallest_nonce_witness :
    ∃ (n : Int) (fuel0 : Nat),
      (∀ fuel : Nat, fuel0 ≤ fuel →
        Blockchain.ProofOfWork
          { sampleLedger with
            transactionPool :=
              sampleLedger.transactionPool.append sampleLedger.rewardTransaction }
          sampleLib fuel = some n) ∧
      0 ≤ n ∧
      Blockchain.ValidProof sampleLib n (sampleGenesis.Hash sampleLib)
        (Blockchain.CopyTransactionPool
          { sampleLedger with
            transactionPool :=
              sampleLedger.transactionPool.append sampleLedger.rewardTransaction })
        MINING_DIFFICULTY = some true ∧
      ∀ m : Int, 0 ≤ m → m < n →
        Blockchain.ValidProof sampleLib m (sampleGenesis.Hash sampleLib)
          (Blockchain.CopyTransactionPool
            { sampleLedger with
              transactionPool :=
                sampleLedger.transactionPool.append sampleLedger.rewardTransaction })
          MINING_DIFFICULTY = some false :=
  ProofOfWork_smallest_nonce sampleLib
    { sampleLedger with
      transactionPool := sampleLedger.transactionPool.append sampleLedger.rewardTransaction }
    sampleGenesis rfl ⟨7, by decide, by decide, by decide⟩

/-! ## Admission of transactions -/

/-- C4: for a sender different from `MINING_SENDER`, `AddTransaction` returns exactly what
`VerifyTransactionSignature` returns for the given key, signature and the transaction
`(sender, recipient, value)`: true if and only if verification succeeds, false if and
only if it fails, and no return if and only if verification panics; when it returns false
the ledger, so the pool and the chain, is unchanged. -/
theorem AddTransaction_iff_signature_verifies (lib : Lib) (bc : Blockchain)
    (sender recipient : String) (value : Float32)
    (senderPublicKey : Option ecdsa.PublicKey) (s : Option utils.Signature)
    (hsender : sender ≠ MINING_SENDER) :
    ((∃ bc1 : Blockchain,
        bc.AddTransaction lib sender recipient value senderPublicKey s = some (true, bc1)) ↔
      Blockchain.VerifyTransactionSignature lib senderPublicKey s
        (NewTransaction sender recipient value) = some true) ∧
    Option.map Prod.fst (bc.AddTransaction lib sender recipient value senderPublicKey s) =
      Blockchain.VerifyTransactionSignature lib senderPublicKey s
        (NewTransaction sender recipient value) ∧
    (∀ bc1 : Blockchain,
      bc.AddTransaction lib sender recipient value senderPublicKey s = some (false, bc1) →
      bc1.transactionPool = bc.transactionPool ∧ bc1.chain = bc.chain ∧ bc1 = bc) := by
  unfold Blockchain.AddTransaction
  simp only [hsender, if_false]
  cases hv : Blockchain.VerifyTransactionSignature lib senderPublicKey s
      (NewTransaction sender recipient value) with
  | none => simp
  | some b =>
    cases b with
    | true => simp
    | false => simp

set_option maxRecDepth 100000 in
/-- C4 at `sampleLib`: alice's transfer with the matching signature is admitted. -/
theorem AddTransaction_iff_signature_verifies_witness :
    "alice" ≠ MINING_SENDER ∧
    (NewBlockchain sampleLib 0 "miner" 5000).AddTransaction sampleLib "alice" "bob"
      (Float32.ofNat 1) (some ⟨1, 2⟩) (some ⟨some 1, some 2⟩) = some (true, sampleLedger) ∧
    Blockchain.VerifyTransactionSignature sampleLib (some ⟨1, 2⟩) (some ⟨some 1, some 2⟩)
      (NewTransaction "alice" "bob" (Float32.ofNat 1)) = some true :=
  ⟨by decide, by decide,
   ((AddTransaction_iff_signature_verifies sampleLib (NewBlockchain sampleLib 0 "miner" 5000)
      "alice" "bob" (Float32.ofNat 1) (some ⟨1, 2⟩) (some ⟨some 1, some 2⟩) (by decide)).1).mp
      ⟨sampleLedger, by decide⟩⟩

/-- C5, refuted at a fresh ledger: `CreateTransaction` called with sender `MINING_SENDER`,
without key and without signature, returns true and the transaction is in the pool
afterwards; it does not return false with the pool unchanged. -/
theorem CreateTransaction_reserved_sender_admitted :
    (NewBlockchain sampleLib 0 "miner" 5000).CreateTransaction sampleLib MINING_SENDER "mallory"
        (Float32.ofNat 1000) none none =
      some (true, { NewBlockchain sampleLib 0 "miner" 5000 with
        transactionPool := some [NewTransaction MINING_SENDER "mallory" (Float32.ofNat 1000)] }) ∧
    ¬ ∃ bc1 : Blockchain,
      (NewBlockchain sampleLib 0 "miner" 5000).CreateTransaction sampleLib MINING_SENDER
        "mallory" (Float32.ofNat 1000) none none = some (false, bc1) ∧
      bc1.transactionPool = (NewBlockchain sampleLib 0 "miner" 5000).transactionPool := by
  have h : (NewBlockchain sampleLib 0 "miner" 5000).CreateTransaction sampleLib MINING_SENDER
      "mallory" (Float32.ofNat 1000) none none =
      some (true, { NewBlockchain sampleLib 0 "miner" 5000 with
        transactionPool := some [NewTransaction MINING_SENDER "mallory" (Float32.ofNat 1000)] }) :=
    rfl
  refine ⟨h, ?_⟩
  rintro ⟨bc1, h1, _⟩
  rw [h] at h1
  simp at h1

/-- C5 as the code has it: `CreateTransaction` passes its arguments to `AddTransaction`
unchanged, so called with sender `MINING_SENDER` it admits the transaction whatever the
recipient, value, public key and signature (nil included): it returns true and the
transaction `(MINING_SENDER, recipient, value)` is appended at the end of the pool, the
rest of the ledger unchanged. -/
theorem CreateTransaction_reserved_sender (lib : Lib) (bc : Blockchain) (recipient : String)
    (value : Float32) (senderPublicKey : Option ecdsa.PublicKey)
    (s : Option utils.Signature) :
    bc.CreateTransaction lib MINING_SENDER recipient value senderPublicKey s =
      bc.AddTransaction lib MINING_SENDER recipient value senderPublicKey s ∧
    bc.CreateTransaction lib MINING_SENDER recipient value senderPublicKey s =
      some (true,
        { bc with
          transactionPool :=
            some (bc.transactionPool.elems ++
              [NewTransaction MINING_SENDER recipient value]) }) := by
  refine ⟨rfl, ?_⟩
  simp [Blockchain.CreateTransaction, Blockchain.AddTransaction, Slice.append]

/-! ## The chain invariant -/

/-- C6: in every ledger state reachable from `NewBlockchain` by calls of `AddTransaction`,
`CreateTransaction` and `Mining`, the chain is non-empty and for every index `i > 0` the
`previousHash` of `chain[i]` is the `Hash()` of `chain[i-1]`. -/
theorem Reachable_chain_linked (lib : Lib) (bc : Blockchain) (h : Reachable lib bc) :
    bc.chain ≠ [] ∧
    ∀ (i : Nat) (b p : Block), 0 < i → bc.chain[i]? = some b → bc.chain[i - 1]? = some p →
      b.previousHash = p.Hash lib := by
  have key : bc.chain ≠ [] ∧ Linked lib bc.chain := by
    induction h with
    | init now addr port =>
      refine ⟨by simp [NewBlockchain, Blockchain.CreateBlock, Blockchain.zeroValue], ?_⟩
      intro i b p hb _
      simp [NewBlockchain, Blockchain.CreateBlock, Blockchain.zeroValue] at hb
    | addTransaction sender recipient value pk s _ hstep ih =>
      rw [Blockchain.AddTransaction_chain _ _ lib sender recipient value pk s _ hstep]
      exact ih
    | createTransaction sender recipient value pk s _ hstep ih =>
      rw [Blockchain.AddTransaction_chain _ _ lib sender recipient value pk s _ hstep]
      exact ih
    | @mining bc0 bc1 ok now fuel _ hstep ih =>
      cases ok with
      | false =>
        rw [Blockchain.Mining_false_inv bc0 bc1 lib now fuel hstep]
        exact ih
      | true =>
        obtain ⟨_, last, nonce, hlast, _, hbc1⟩ :=
          Blockchain.Mining_true_inv bc0 bc1 lib now fuel hstep
        rw [hbc1]
        exact ⟨by simp, Linked_concat lib bc0.chain last _ ih.2 hlast rfl⟩
  refine ⟨key.1, ?_⟩
  intro i b p hi hb hp
  obtain ⟨j, rfl⟩ : ∃ j, i = j + 1 := ⟨i - 1, by omega⟩
  exact key.2 j b p hb hp

set_option maxRecDepth 100000 in
/-- C6 at `sampleMined`, a ledger of two blocks reached from a fresh ledger by admitting
alice's transfer and mining once. -/
theorem Reachable_chain_linked_witness :
    sampleMined.chain.length = 2 ∧
    sampleMined.chain ≠ [] ∧
    ∀ (i : Nat) (b p : Block), 0 < i → sampleMined.chain[i]? = some b →
      sampleMined.chain[i - 1]? = some p → b.previousHash = p.Hash sampleLib :=
  ⟨rfl, Reachable_chain_linked sampleLib sampleMined
    (Reachable.mining 7 4
      (Reachable.addTransaction "alice" "bob" (Float32.ofNat 1) (some ⟨1, 2⟩) (some ⟨some 1, some 2⟩)
        (Reachable.init 0 "miner" 5000)
        (show (NewBlockchain sampleLib 0 "miner" 5000).AddTransaction sampleLib "alice" "bob"
          (Float32.ofNat 1) (some ⟨1, 2⟩) (some ⟨some 1, some 2⟩) = some (true, sampleLedger) by decide))
      (show sampleLedger.Mining sampleLib 7 4 = some (true, sampleMined) by decide))⟩

/-! ## Balances -/

set_option maxRecDepth 100000 in
/-- C9, refuted: `"carol"` holds `2^24`; a block that pays her 1 twice is appended.  The sum
received in the block is 2 and nothing is sent, but each addition of 1 to `2^24` rounds back
to `2^24` in `float32`, so the balance after equals the balance before and not the balance
before plus 2. -/
theorem CalculateTotalAmount_not_linear :
    roundingLedger.CalculateTotalAmount "carol" = Float32.ofNat 16777216 ∧
    receivedIn roundingBlock "carol" = Float32.ofNat 2 ∧
    sentIn roundingBlock "carol" = Float32.zero ∧
    Blockchain.CalculateTotalAmount
      { roundingLedger with chain := roundingLedger.chain ++ [roundingBlock] } "carol" =
      Float32.ofNat 16777216 ∧
    roundingLedger.CalculateTotalAmount "carol" + receivedIn roundingBlock "carol" -
      sentIn roundingBlock "carol" = Float32.ofNat 16777218 ∧
    Blockchain.CalculateTotalAmount
      { roundingLedger with chain := roundingLedger.chain ++ [roundingBlock] } "carol" ≠
      roundingLedger.CalculateTotalAmount "carol" + receivedIn roundingBlock "carol" -
        sentIn roundingBlock "carol" := by
  decide

/-- C9 as the code has it: the balance of `a` after a block `B` is appended is the balance
before, updated by the transactions of `B` one at a time in block order, each step in
`float32` arithmetic (rounded to the nearest `float32`): the value is added when `a` is the
recipient and then subtracted when `a` is the sender.  The balance after depends on the
earlier chain only through the balance before. -/
theorem CalculateTotalAmount_append (bc : Blockchain) (B : Block) (a : String) :
    Blockchain.CalculateTotalAmount { bc with chain := bc.chain ++ [B] } a =
      B.transactions.elems.foldl (fun totalAmount t =>
        if a = t.senderBlockchainAddress then
          (if a = t.recipientBlockchainAddress then totalAmount + t.value else totalAmount)
            - t.value
        else
          (if a = t.recipientBlockchainAddress then totalAmount + t.value else totalAmount))
        (bc.CalculateTotalAmount a) := by
  simp only [Blockchain.CalculateTotalAmount, List.foldl_append, List.foldl_cons,
    List.foldl_nil]
  rfl

/-! ## End to end -/

/-- C10: starting from a fresh ledger `NewBlockchain(L, port)`, if one transaction from `A`
to `B` with value 1.0 is submitted with a signature that verifies and `Mining` is then
called (the puzzle having a solution among the non-negative `int` values), with `A`, `B`,
`L` and `MINING_SENDER` pairwise distinct, then admission returns true, `Mining` returns
true for every sufficient loop budget, the chain has length 2,
`CalculateTotalAmount(B) = 1.0` and `CalculateTotalAmount(L) = MINING_REWARD`. -/
theorem end_to_end_transfer (lib : Lib) (now0 now1 : Int) (L A B : String) (port : Nat)
    (senderPublicKey : Option ecdsa.PublicKey) (s : Option utils.Signature)
    (hAB : A ≠ B) (hAL : A ≠ L) (hAM : A ≠ MINING_SENDER) (hBL : B ≠ L)
    (hBM : B ≠ MINING_SENDER) (hLM : L ≠ MINING_SENDER)
    (hsig : Blockchain.VerifyTransactionSignature lib senderPublicKey s
      (NewTransaction A B (Float32.ofNat 1)) = some true)
    (hsolvable : ∃ n : Int, 0 ≤ n ∧ n < 2 ^ 63 ∧
      Blockchain.ValidProof lib n
        ((NewBlock now0 0 (Block.zeroValue.Hash lib) none).Hash lib)
        (some [NewTransaction A B (Float32.ofNat 1),
               NewTransaction MINING_SENDER L MINING_REWARD])
        MINING_DIFFICULTY = some true) :
    ∃ (bc1 bc2 : Blockchain) (fuel0 : Nat),
      (NewBlockchain lib now0 L port).AddTransaction lib A B (Float32.ofNat 1)
        senderPublicKey s = some (true, bc1) ∧
      (∀ fuel : Nat, fuel0 ≤ fuel → bc1.Mining lib now1 fuel = some (true, bc2)) ∧
      bc2.chain.length = 2 ∧
      bc2.CalculateTotalAmount B = Float32.ofNat 1 ∧
      bc2.CalculateTotalAmount L = MINING_REWARD := by
  have hadd : (NewBlockchain lib now0 L port).AddTransaction lib A B (Float32.ofNat 1)
      senderPublicKey s = some (true, { NewBlockchain lib now0 L port with
        transactionPool := some [NewTransaction A B (Float32.ofNat 1)] }) := by
    simp only [Blockchain.AddTransaction, hAM, if_false, hsig]
    rfl
  obtain ⟨nonce, fuel0, hrun⟩ :=
    Blockchain.Mining_succeeds
      { NewBlockchain lib now0 L port with
        transactionPool := some [NewTransaction A B (Float32.ofNat 1)] }
      lib now1 (NewBlock now0 0 (Block.zeroValue.Hash lib) none)
      (by simp [Slice.len, Slice.elems]) rfl hsolvable
  refine ⟨_, _, fuel0, hadd, hrun, rfl, ?_, ?_⟩
  · have h1 := Float32_zero_add_one
    simp [Blockchain.CalculateTotalAmount, Blockchain.creditDebit, NewBlockchain,
      Blockchain.CreateBlock, Blockchain.zeroValue, NewBlock, Slice.elems, Slice.append,
      Blockchain.rewardTransaction, NewTransaction, hAB.symm, hBL, hBM, h1]
  · have h1 := zero_add_MINING_REWARD
    simp [Blockchain.CalculateTotalAmount, Blockchain.creditDebit, NewBlockchain,
      Blockchain.CreateBlock, Blockchain.zeroValue, NewBlock, Slice.elems, Slice.append,
      Blockchain.rewardTransaction, NewTransaction, hAL.symm, hBL.symm, hLM, h1]

set_option maxRecDepth 100000 in
/-- C10 at `sampleLib`: alice pays bob 1.0 on the ledger of `"miner"`. -/
theorem end_to_end_transfer_witness :
    ∃ (bc1 bc2 : Blockchain) (fuel0 : Nat),
      (NewBlockchain sampleLib 0 "miner" 5000).AddTransaction sampleLib "alice" "bob"
        (Float32.ofNat 1) (some ⟨1, 2⟩) (some ⟨some 1, some 2⟩) = some (true, bc1) ∧
      (∀ fuel : Nat, fuel0 ≤ fuel → bc1.Mining sampleLib 7 fuel = some (true, bc2)) ∧
      bc2.chain.length = 2 ∧
      bc2.CalculateTotalAmount "bob" = Float32.ofNat 1 ∧
      bc2.CalculateTotalAmount "miner" = MINING_REWARD :=
  end_to_end_transfer sampleLib 0 7 "miner" "alice" "bob" 5000 (some ⟨1, 2⟩) (some ⟨some 1, some 2⟩)
    (by decide) (by decide) (by decide) (by decide) (by decide) (by decide) (by decide)
    ⟨3, by decide, by decide, by decide⟩

/-! ## Values of transactions -/

set_option maxRecDepth 100000 in
/-- C11, refuted: a fresh ledger admits alice's signed transfer of `-1.0` to bob, and a
round of mining seals it.  Both ledgers are reachable; the first has a negative value in
its pool, the second in its chain.  Whatever the libraries, a transfer of `-1.0` in the
name of `MINING_SENDER` is admitted as well. -/
theorem negative_value_reachable :
    (∀ lib : Lib, ∃ bc : Blockchain, Reachable lib bc ∧
      ∃ t : Transaction, t ∈ bc.transactionPool.elems ∧ t.value.nonneg = false) ∧
    Reachable sampleLib negativeLedger ∧
    (∃ t : Transaction, t ∈ negativeLedger.transactionPool.elems ∧ t.value.nonneg = false) ∧
    Reachable sampleLib negativeMined ∧
    (∃ (b : Block) (t : Transaction), b ∈ negativeMined.chain ∧ t ∈ b.transactions.elems ∧
      t.value.nonneg = false) ∧
    ¬ negativeLedger.ValuesNonneg ∧ ¬ negativeMined.ValuesNonneg := by
  have hadd : (NewBlockchain sampleLib 0 "miner" 5000).AddTransaction sampleLib "alice" "bob"
      (-(Float32.ofNat 1)) (some ⟨1, 2⟩) (some ⟨some 1, some 2⟩) =
      some (true, negativeLedger) := by decide
  have hmine : negativeLedger.Mining sampleLib 7 3 = some (true, negativeMined) := by decide
  have hr1 : Reachable sampleLib negativeLedger :=
    Reachable.addTransaction "alice" "bob" (-(Float32.ofNat 1)) (some ⟨1, 2⟩)
      (some ⟨some 1, some 2⟩) (Reachable.init 0 "miner" 5000) hadd
  have hr2 : Reachable sampleLib negativeMined := Reachable.mining 7 3 hr1 hmine
  have hpool : ∃ t : Transaction,
      t ∈ negativeLedger.transactionPool.elems ∧ t.value.nonneg = false :=
    ⟨NewTransaction "alice" "bob" (-(Float32.ofNat 1)), by decide, by decide⟩
  have hchain : ∃ (b : Block) (t : Transaction), b ∈ negativeMined.chain ∧
      t ∈ b.transactions.elems ∧ t.value.nonneg = false :=
    ⟨NewBlock 7 2 (sampleGenesis.Hash sampleLib)
        (negativeLedger.transactionPool.append negativeLedger.rewardTransaction),
      NewTransaction "alice" "bob" (-(Float32.ofNat 1)), by decide, by decide, by decide⟩
  refine ⟨?_, hr1, hpool, hr2, hchain, ?_, ?_⟩
  · intro lib
    have hadd0 : (NewBlockchain lib 0 "miner" 5000).AddTransaction lib MINING_SENDER "bob"
        (-(Float32.ofNat 1)) none none =
        some (true, { NewBlockchain lib 0 "miner" 5000 with
          transactionPool := some [NewTransaction MINING_SENDER "bob" (-(Float32.ofNat 1))] }) :=
      rfl
    exact ⟨_, Reachable.addTransaction MINING_SENDER "bob" (-(Float32.ofNat 1)) none none
      (Reachable.init 0 "miner" 5000) hadd0,
      NewTransaction MINING_SENDER "bob" (-(Float32.ofNat 1)), List.mem_singleton.mpr rfl,
      by decide⟩
  · rintro ⟨h1, _⟩
    obtain ⟨t, ht, hv⟩ := hpool
    rw [h1 t ht] at hv
    exact Bool.noConfusion hv
  · rintro ⟨_, h2⟩
    obtain ⟨b, t, hb, ht, hv⟩ := hchain
    rw [h2 b t hb ht] at hv
    exact Bool.noConfusion hv

/-- C11 as the code has it: the ledger stores the values it is given and adds only rewards
of `MINING_REWARD`, so when every value passed to `AddTransaction` and `CreateTransaction`
is `>= 0`, every transaction in the pool and in every block of the chain of every ledger
state reached from `NewBlockchain` by `AddTransaction`, `CreateTransaction` and `Mining`
has a value `>= 0`. -/
theorem ReachableWith_nonneg_values (lib : Lib) (bc : Blockchain)
    (h : ReachableWith lib (fun v => v.nonneg = true) bc) :
    (∀ t : Transaction, t ∈ bc.transactionPool.elems → t.value.nonneg = true) ∧
    ∀ (b : Block) (t : Transaction), b ∈ bc.chain → t ∈ b.transactions.elems →
      t.value.nonneg = true := by
  have hstep : ∀ (bc bc1 : Blockchain) (ok : Bool) (sender recipient : String)
      (value : Float32) (pk : Option ecdsa.PublicKey) (s : Option utils.Signature),
      bc.ValuesNonneg → value.nonneg = true →
      bc.AddTransaction lib sender recipient value pk s = some (ok, bc1) →
      bc1.ValuesNonneg := by
    intro bc bc1 ok sender recipient value pk s hinv hval hrun
    rcases Blockchain.AddTransaction_inv bc bc1 lib sender recipient value pk s ok hrun with
      ⟨_, h1⟩ | ⟨_, h1⟩
    · rw [h1]
      refine ⟨?_, hinv.2⟩
      intro t ht
      simp only [Slice_elems_append, List.mem_append, List.mem_singleton] at ht
      rcases ht with ht | ht
      · exact hinv.1 t ht
      · rw [ht]; exact hval
    · rw [h1]; exact hinv
  have key : bc.ValuesNonneg := by
    induction h with
    | init now addr port =>
      refine ⟨?_, ?_⟩
      · intro t ht
        simp [NewBlockchain, Blockchain.CreateBlock, Slice.elems] at ht
      · intro b t hb ht
        simp [NewBlockchain, Blockchain.CreateBlock, Blockchain.zeroValue, NewBlock] at hb
        rw [hb] at ht
        simp [Slice.elems] at ht
    | addTransaction sender recipient value pk s _ hval hrun ih =>
      exact hstep _ _ _ sender recipient value pk s ih hval hrun
    | createTransaction sender recipient value pk s _ hval hrun ih =>
      exact hstep _ _ _ sender recipient value pk s ih hval hrun
    | @mining bc0 bc1 ok now fuel _ hrun ih =>
      cases ok with
      | false =>
        rw [Blockchain.Mining_false_inv bc0 bc1 lib now fuel hrun]
        exact ih
      | true =>
        obtain ⟨_, last, nonce, _, _, hbc1⟩ :=
          Blockchain.Mining_true_inv bc0 bc1 lib now fuel hrun
        rw [hbc1]
        refine ⟨?_, ?_⟩
        · intro t ht
          simp [Slice.elems] at ht
        · intro b t hb ht
          simp only [List.mem_append, List.mem_singleton] at hb
          rcases hb with hb | hb
          · exact ih.2 b t hb ht
          · rw [hb] at ht
            simp only [NewBlock, Slice_elems_append, List.mem_append,
              List.mem_singleton] at ht
            rcases ht with ht | ht
            · exact ih.1 t ht
            · rw [ht]; rfl
  exact key

set_option maxRecDepth 100000 in
/-- C11 as the code has it, at `sampleMined`: alice's transfer of `1.0` is the only value
submitted. -/
theorem ReachableWith_nonneg_values_witness :
    (∀ t : Transaction, t ∈ sampleMined.transactionPool.elems → t.value.nonneg = true) ∧
    ∀ (b : Block) (t : Transaction), b ∈ sampleMined.chain → t ∈ b.transactions.elems →
      t.value.nonneg = true :=
  ReachableWith_nonneg_values sampleLib sampleMined
    (ReachableWith.mining 7 4
      (ReachableWith.addTransaction "alice" "bob" (Float32.ofNat 1) (some ⟨1, 2⟩)
        (some ⟨some 1, some 2⟩) (ReachableWith.init 0 "miner" 5000) (by decide)
        (show (NewBlockchain sampleLib 0 "miner" 5000).AddTransaction sampleLib "alice" "bob"
          (Float32.ofNat 1) (some ⟨1, 2⟩) (some ⟨some 1, some 2⟩) = some (true, sampleLedger)
          by decide))
      (show sampleLedger.Mining sampleLib 7 4 = some (true, sampleMined) by decide))

/-! ## The fresh ledger -/

/-- C12: `NewBlockchain(addr, port)` returns a ledger whose chain is exactly one genesis
block, with nonce 0, no transactions (the nil slice) and `previousHash` equal to `Hash()`
of the zero-valued `Block`, whose pool is empty and whose `blockchainAddress` is `addr`. -/
theorem NewBlockchain_genesis (lib : Lib) (now : Int) (addr : String) (port : Nat) :
    ∃ genesis : Block,
      (NewBlockchain lib now addr port).chain = [genesis] ∧
      genesis.nonce = 0 ∧
      genesis.transactions = none ∧ genesis.transactions.len = 0 ∧
      genesis.previousHash = Block.zeroValue.Hash lib ∧
      genesis.timestamp = now ∧
      (NewBlockchain lib now addr port).transactionPool.len = 0 ∧
      (NewBlockchain lib now addr port).transactionPool = some [] ∧
      (NewBlockchain lib now addr port).blockchainAddress = addr ∧
      (NewBlockchain lib now addr port).port = port :=
  ⟨NewBlock now 0 (Block.zeroValue.Hash lib) none, rfl, rfl, rfl, rfl, rfl, rfl, rfl, rfl,
    rfl, rfl⟩

/-! ## Auxiliary facts on sealed blocks -/

/-- At the difficulty of the program, `ValidProof` returns true exactly when the first
`MINING_DIFFICULTY` hexadecimal digits of the hash of the guess block are zeros. -/
theorem ValidProof_true_iff (lib : Lib) (nonce : Int) (previousHash : Hash32)
    (transactions : Slice Transaction) :
    Blockchain.ValidProof lib nonce previousHash transactions MINING_DIFFICULTY = some true ↔
    (hexChars (Block.Hash lib
      { timestamp := 0, nonce := nonce, previousHash := previousHash,
        transactions := transactions }).val).take MINING_DIFFICULTY =
      List.replicate MINING_DIFFICULTY '0' := by
  have hlen : MINING_DIFFICULTY ≤ (hexChars (Block.Hash lib
      { timestamp := 0, nonce := nonce, previousHash := previousHash,
        transactions := transactions }).val).length := by
    rw [hexChars_length, (Block.Hash lib _).property]; decide
  unfold Blockchain.ValidProof
  simp only [hlen, if_true, Option.some.injEq, decide_eq_true_eq]

/-- A successful round of `Mining` seals a block whose nonce passed `ValidProof` on the
very transaction list and previous hash the block stores. -/
theorem Mining_true_sealed (lib : Lib) (bc bc1 : Blockchain) (now : Int) (fuel : Nat)
    (h : bc.Mining lib now fuel = some (true, bc1)) :
    ∃ (last : Block) (nonce : Int), bc.LastBlock = some last ∧
      bc1.chain = bc.chain ++ [NewBlock now nonce (last.Hash lib)
        (some (bc.transactionPool.elems ++ [bc.rewardTransaction]))] ∧
      bc1.transactionPool = some [] ∧
      Blockchain.ProofOfWorkLoop lib (last.Hash lib)
        (some (bc.transactionPool.elems ++ [bc.rewardTransaction])) fuel 0 = some nonce ∧
      Blockchain.ValidProof lib nonce (last.Hash lib)
        (some (bc.transactionPool.elems ++ [bc.rewardTransaction]))
        MINING_DIFFICULTY = some true := by
  obtain ⟨_, last, nonce, hlast, hloop, hbc1⟩ :=
    Blockchain.Mining_true_inv bc bc1 lib now fuel h
  refine ⟨last, nonce, hlast, by rw [hbc1]; rfl, by rw [hbc1], hloop, ?_⟩
  exact Blockchain.ProofOfWorkLoop_valid lib _ _ fuel 0 nonce hloop

/-! ## The proof-of-work gate -/

set_option maxRecDepth 1000000 in
/-- SHA-256 as defined here yields the published digests of the empty message and of
`abc`. -/
theorem Sum256_test_vectors :
    String.mk (hexChars (sha256.Sum256 [])) =
      "e3b0c44298fc1c149afbf4c8996fb92427ae41e4649b934ca495991b7852b855" ∧
    String.mk (hexChars (sha256.Sum256 [97, 98, 99])) =
      "ba7816bf8f01cfea414140de5dae2223b00361a396177a9cb410ff61f20015ad" := by
  decide

set_option maxRecDepth 1000000 in
/-- C13, refuted with SHA-256 itself: the ledger `shaLedger` holds alice's transfer; mining
at the clock reading 1700000020000001319 returns true within one test of the loop (nonce 0
makes the guess block, with timestamp 0, hash to `000bf990...`) and appends a block whose
own `Hash()` renders as `ef26cc29...`: it does not begin with three `0` characters. -/
theorem Mining_own_hash_not_zero_led :
    shaLedger.Mining shaLib 1700000020000001319 1 = some (true, shaMined) ∧
    ∃ b : Block, shaMined.chain = shaLedger.chain ++ [b] ∧
      b.MarshalJSON shaLib = some ("\x7b\"timestamp\":1700000020000001319,\"nonce\":0," ++
        "\"previous_hash\":" ++
        "\"a8541765fc2f44cd83802de73c59e2a94037d65df685da1ca0b2661b52c1206a\"," ++
        "\"transactions\":[\x7b\"sender_blockchain_address\":\"alice\"," ++
        "\"recipient_blockchain_address\":\"bob\",\"value\":1\x7d," ++
        "\x7b\"sender_blockchain_address\":\"THE BLOCKCHAIN\"," ++
        "\"recipient_blockchain_address\":\"miner\",\"value\":1\x7d]\x7d") ∧
      String.mk (hexChars (Block.Hash shaLib { b with timestamp := 0 }).val) =
        "000bf9901b4937b2b032d88334bf90016bb8247ac4043489663f7d8cfdee7702" ∧
      String.mk (hexChars (b.Hash shaLib).val) =
        "ef26cc29582ec0e74f4eac0925a5dabca70bbdca298255c41023063fcd350224" ∧
      (hexChars (b.Hash shaLib).val).take MINING_DIFFICULTY ≠
        List.replicate MINING_DIFFICULTY '0' :=
  ⟨by decide, _, rfl, by decide, by decide, by decide, by decide⟩

set_option maxRecDepth 100000 in
/-- The same with the stand-in `sampleLib`, at `sampleLedger`: mining at clock reading 7
appends a block sealed with nonce 3; the hexadecimal rendering of that block's own `Hash()`
begins with `030`, not with three `0` characters.  The nonce was tested on a block with
timestamp 0, the stored block carries timestamp 7. -/
theorem Mining_own_hash_sampleLib :
    sampleLedger.Mining sampleLib 7 4 = some (true, sampleMined) ∧
    ∃ b : Block, sampleMined.chain = sampleLedger.chain ++ [b] ∧
      b.timestamp = 7 ∧ b.nonce = 3 ∧
      (hexChars (b.Hash sampleLib).val).take MINING_DIFFICULTY = ['0', '3', '0'] ∧
      (hexChars (b.Hash sampleLib).val).take MINING_DIFFICULTY ≠
        List.replicate MINING_DIFFICULTY '0' :=
  ⟨by decide, _, rfl, rfl, rfl, by decide, by decide⟩

/-- C13 as the code has it: for every block `b` appended to the chain by `Mining`, the
hexadecimal rendering of the hash of `b` with its timestamp replaced by 0 begins with
`MINING_DIFFICULTY` `0` characters; the own `Hash()` of `b` does so when the clock reading
stored in `b` is 0. -/
theorem Mining_hash_at_timestamp_zero (lib : Lib) (bc bc1 : Blockchain) (now : Int)
    (fuel : Nat) (h : bc.Mining lib now fuel = some (true, bc1)) :
    ∃ b : Block, bc1.chain = bc.chain ++ [b] ∧ b.timestamp = now ∧
      (hexChars (Block.Hash lib { b with timestamp := 0 }).val).take MINING_DIFFICULTY =
        List.replicate MINING_DIFFICULTY '0' ∧
      (now = 0 →
        (hexChars (b.Hash lib).val).take MINING_DIFFICULTY =
          List.replicate MINING_DIFFICULTY '0') := by
  obtain ⟨last, nonce, _, hchain, _, _, hvalid⟩ := Mining_true_sealed lib bc bc1 now fuel h
  rw [ValidProof_true_iff] at hvalid
  refine ⟨_, hchain, rfl, hvalid, ?_⟩
  intro h0
  subst h0
  exact hvalid

set_option maxRecDepth 100000 in
/-- C13 as the code has it, at `sampleLedger`: with timestamp 0 the sealed block hashes to
three leading zeros. -/
theorem Mining_hash_at_timestamp_zero_witness :
    ∃ b : Block, sampleMined.chain = sampleLedger.chain ++ [b] ∧ b.timestamp = 7 ∧
      (hexChars (Block.Hash sampleLib { b with timestamp := 0 }).val).take
        MINING_DIFFICULTY = List.replicate MINING_DIFFICULTY '0' ∧
      ((7 : Int) = 0 →
        (hexChars (b.Hash sampleLib).val).take MINING_DIFFICULTY =
          List.replicate MINING_DIFFICULTY '0') :=
  Mining_hash_at_timestamp_zero sampleLib sampleLedger sampleMined 7 4 (by decide)

/-- C20: after every successful `Mining` call the chain is the old chain followed by one
block `b`, and `ValidProof(b.nonce, b.previousHash, b.transactions, MINING_DIFFICULTY)` is
true: the nonce is the one `ProofOfWork` returned on the ledger that holds the reward, and
the list that search ran over (the copied pool) and the hash of the last block are, by
value, the transaction list and the previous hash stored in `b`. -/
theorem Mining_nonce_valid_for_sealed_block (lib : Lib) (bc bc1 : Blockchain) (now : Int)
    (fuel : Nat) (h : bc.Mining lib now fuel = some (true, bc1)) :
    ∃ (b last : Block), bc1.chain = bc.chain ++ [b] ∧
      Blockchain.ValidProof lib b.nonce b.previousHash b.transactions
        MINING_DIFFICULTY = some true ∧
      Blockchain.ProofOfWork
        { bc with transactionPool := bc.transactionPool.append bc.rewardTransaction }
        lib fuel = some b.nonce ∧
      Blockchain.CopyTransactionPool
        { bc with transactionPool := bc.transactionPool.append bc.rewardTransaction } =
        b.transactions ∧
      bc.LastBlock = some last ∧ b.previousHash = last.Hash lib := by
  obtain ⟨last, nonce, hlast, hchain, _, hloop, hvalid⟩ :=
    Mining_true_sealed lib bc bc1 now fuel h
  refine ⟨_, last, hchain, hvalid, ?_, ?_, hlast, rfl⟩
  · have hl : Blockchain.LastBlock
        { bc with transactionPool := bc.transactionPool.append bc.rewardTransaction } =
        some last := hlast
    simp only [Blockchain.ProofOfWork, hl, Blockchain.CopyTransactionPool_eq,
      Slice_elems_append]
    exact hloop
  · rw [Blockchain.CopyTransactionPool_eq]
    rfl

set_option maxRecDepth 100000 in
/-- C20 at `sampleLedger`: nonce 3, sealed at clock reading 7, passes `ValidProof` with the
stored list and previous hash. -/
theorem Mining_nonce_valid_for_sealed_block_witness :
    ∃ (b last : Block), sampleMined.chain = sampleLedger.chain ++ [b] ∧
      Blockchain.ValidProof sampleLib b.nonce b.previousHash b.transactions
        MINING_DIFFICULTY = some true ∧
      Blockchain.ProofOfWork
        { sampleLedger with
          transactionPool :=
            sampleLedger.transactionPool.append sampleLedger.rewardTransaction }
        sampleLib 4 = some b.nonce ∧
      Blockchain.CopyTransactionPool
        { sampleLedger with
          transactionPool :=
            sampleLedger.transactionPool.append sampleLedger.rewardTransaction } =
        b.transactions ∧
      sampleLedger.LastBlock = some last ∧ b.previousHash = last.Hash sampleLib :=
  Mining_nonce_valid_for_sealed_block sampleLib sampleLedger sampleMined 7 4 (by decide)

/-! ## The request boundary and the pool -/

/-- C16: `TransactionRequest.Validate` of package `block` returns true if and only if all
five fields (sender address, recipient address, sender public key, value, signature) are
non-nil; a request that misses any one of them gets false. -/
theorem TransactionRequest_Validate_iff (r : TransactionRequest) :
    (r.Validate = true ↔
      (r.SenderBlockchainAddress ≠ none ∧ r.RecipientBlockchainAddress ≠ none ∧
        r.SenderPublicKey ≠ none ∧ r.Value ≠ none ∧ r.Signature ≠ none)) ∧
    (r.Validate = false ↔
      (r.SenderBlockchainAddress = none ∨ r.RecipientBlockchainAddress = none ∨
        r.SenderPublicKey = none ∨ r.Value = none ∨ r.Signature = none)) := by
  unfold TransactionRequest.Validate
  by_cases h : r.SenderBlockchainAddress = none ∨ r.RecipientBlockchainAddress = none ∨
      r.SenderPublicKey = none ∨ r.Value = none ∨ r.Signature = none
  · rw [if_pos h]
    refine ⟨⟨fun hf => Bool.noConfusion hf, fun hall => ?_⟩, ⟨fun _ => h, fun _ => rfl⟩⟩
    rcases h with h | h | h | h | h
    · exact absurd h hall.1
    · exact absurd h hall.2.1
    · exact absurd h hall.2.2.1
    · exact absurd h hall.2.2.2.1
    · exact absurd h hall.2.2.2.2
  · rw [if_neg h]
    refine ⟨⟨fun _ => ?_, fun _ => rfl⟩, ⟨fun hf => Bool.noConfusion hf, fun h1 => absurd h1 h⟩⟩
    simp only [not_or] at h
    exact h

/-- C17: every successful admission appends exactly one transaction at the end of the pool
and never deduplicates: if `AddTransaction(sender, recipient, value, ...)` returns true on
pool `P`, the new pool is `P` followed by the transaction `(sender, recipient, value)`, so
its number of occurrences in the pool grows by one even when it is in `P` already, and a
second successful identical submission makes the pool two longer than `P`. -/
theorem AddTransaction_appends_without_dedup (lib : Lib) (bc bc1 : Blockchain)
    (sender recipient : String) (value : Float32)
    (senderPublicKey : Option ecdsa.PublicKey) (s : Option utils.Signature)
    (h : bc.AddTransaction lib sender recipient value senderPublicKey s = some (true, bc1)) :
    bc1.transactionPool.elems =
      bc.transactionPool.elems ++ [NewTransaction sender recipient value] ∧
    bc1.transactionPool.len = bc.transactionPool.len + 1 ∧
    bc1.transactionPool.elems.count (NewTransaction sender recipient value) =
      bc.transactionPool.elems.count (NewTransaction sender recipient value) + 1 ∧
    ∀ (bc2 : Blockchain) (senderPublicKey2 : Option ecdsa.PublicKey)
      (s2 : Option utils.Signature),
      bc1.AddTransaction lib sender recipient value senderPublicKey2 s2 = some (true, bc2) →
      bc2.transactionPool.elems = bc.transactionPool.elems ++
        [NewTransaction sender recipient value, NewTransaction sender recipient value] ∧
      bc2.transactionPool.len = bc.transactionPool.len + 2 := by
  have happ : ∀ (x y : Blockchain) (pk : Option ecdsa.PublicKey)
      (sg : Option utils.Signature),
      x.AddTransaction lib sender recipient value pk sg = some (true, y) →
      y.transactionPool.elems =
        x.transactionPool.elems ++ [NewTransaction sender recipient value] := by
    intro x y pk sg hrun
    rcases Blockchain.AddTransaction_inv x y lib sender recipient value pk sg true hrun with
      ⟨_, h1⟩ | ⟨h0, _⟩
    · rw [h1]; rfl
    · exact Bool.noConfusion h0
  have h1 := happ bc bc1 senderPublicKey s h
  refine ⟨h1, by simp [Slice.len, h1], by simp [h1], ?_⟩
  intro bc2 pk2 s2 h2
  have h3 := happ bc1 bc2 pk2 s2 h2
  rw [h1] at h3
  refine ⟨by simp [h3], by simp [Slice.len, h3]⟩

set_option maxRecDepth 100000 in
/-- C17 at a ledger that already holds alice's transfer: the same transfer is admitted
again and the pool holds it twice. -/
theorem AddTransaction_appends_without_dedup_witness :
    ∃ bc1 : Blockchain,
      sampleLedger.AddTransaction sampleLib "alice" "bob" (Float32.ofNat 1) (some ⟨1, 2⟩)
        (some ⟨some 1, some 2⟩) = some (true, bc1) ∧
      bc1.transactionPool.elems = [NewTransaction "alice" "bob" (Float32.ofNat 1),
        NewTransaction "alice" "bob" (Float32.ofNat 1)] ∧
      bc1.transactionPool.elems.count (NewTransaction "alice" "bob" (Float32.ofNat 1)) =
        sampleLedger.transactionPool.elems.count
          (NewTransaction "alice" "bob" (Float32.ofNat 1)) + 1 :=
  ⟨{ sampleLedger with
      transactionPool :=
        sampleLedger.transactionPool.append (NewTransaction "alice" "bob" (Float32.ofNat 1)) },
    by decide,
    (AddTransaction_appends_without_dedup sampleLib sampleLedger _ "alice" "bob"
      (Float32.ofNat 1) (some ⟨1, 2⟩) (some ⟨some 1, some 2⟩) (by decide)).1,
    (AddTransaction_appends_without_dedup sampleLib sampleLedger _ "alice" "bob"
      (Float32.ofNat 1) (some ⟨1, 2⟩) (some ⟨some 1, some 2⟩) (by decide)).2.2.1⟩

/-! ## Auxiliary facts on byte buffers -/

/-- The buffer of `NewWallet` is the version byte, the 20-byte digest and the first four
bytes of the double SHA-256 of the two together. -/
theorem addressBytes_eq (wl : WalletLib) (publicKey : ecdsa.PublicKey) :
    wallet.addressBytes wl publicKey =
      0 :: (wl.ripemd160 (wl.sha256
        (bigIntBytes publicKey.X ++ bigIntBytes publicKey.Y)).val).val ++
      (wl.sha256 (wl.sha256 (0 :: (wl.ripemd160 (wl.sha256
        (bigIntBytes publicKey.X ++ bigIntBytes publicKey.Y)).val).val)).val).val.take 4 := by
  have h20 := (wl.ripemd160 (wl.sha256
    (bigIntBytes publicKey.X ++ bigIntBytes publicKey.Y)).val).property
  have hvd4 : copyBytes ((makeBytes 21).set 0 0) 1 21 (wl.ripemd160 (wl.sha256
      (bigIntBytes publicKey.X ++ bigIntBytes publicKey.Y)).val).val =
      0 :: (wl.ripemd160 (wl.sha256
        (bigIntBytes publicKey.X ++ bigIntBytes publicKey.Y)).val).val := by
    unfold copyBytes makeBytes
    rw [h20]
    simp [List.take_of_length_le, h20, List.replicate_succ]
  have h32 := (wl.sha256 (wl.sha256 (0 :: (wl.ripemd160 (wl.sha256
    (bigIntBytes publicKey.X ++ bigIntBytes publicKey.Y)).val).val)).val).property
  unfold wallet.addressBytes
  simp only [hvd4]
  unfold copyBytes makeBytes
  simp [List.take_of_length_le, h20, h32, List.take_append_of_le_length,
    List.drop_append_of_le_length]

/-- Bytes of a number below `256 ^ k`: at most `k`. -/
theorem natBytesAux_length_le (fuel n k : Nat) (h : n < 256 ^ k) :
    (natBytesAux fuel n).length ≤ k := by
  induction fuel generalizing n k with
  | zero => simp [natBytesAux]
  | succ fuel ih =>
    unfold natBytesAux
    by_cases h0 : n = 0
    · simp [h0]
    · rw [if_neg h0]
      cases k with
      | zero => simp at h; omega
      | succ k =>
        have hdiv : n / 256 < 256 ^ k := by
          rw [Nat.div_lt_iff_lt_mul (by decide)]
          rw [pow_succ] at h
          exact h
        have := ih (n / 256) k hdiv
        simp
        omega

set_option maxRecDepth 100000 in
/-- The scalar `2^255` has 32 bytes, so 64 hexadecimal digits. -/
theorem hex_length_scalar_two_pow_255 :
    (String.mk (hexChars (bigIntBytes (2 ^ 255)))).length = 64 := by
  decide

set_option maxRecDepth 100000 in
/-- Two coordinates equal to 1, each padded to 64 digits, give 128 characters. -/
theorem hexPadded64_length_one_one :
    (String.mk (hexPadded64 (bigIntBytes 1) ++ hexPadded64 (bigIntBytes 1))).length = 128 := by
  decide

/-! ## Wallets -/

/-- C14: for every key pair, `NewWallet` base58-encodes a buffer of exactly 25 bytes: byte 0
is `0x00`, bytes 1..20 are RIPEMD-160(SHA-256(`X.Bytes()` followed by `Y.Bytes()`)), and
bytes 21..24 are the first 4 bytes of SHA-256(SHA-256(bytes 0..20)); the address is a
function of the public key alone, so two keys with the same public key get the same
address. -/
theorem NewWallet_address_buffer (wl : WalletLib) (key : ecdsa.PrivateKey) :
    ∃ w : wallet.Wallet, wallet.NewWallet wl (some key) = some w ∧
      w.blockchainAddress = wl.base58Encode (wallet.addressBytes wl key.PublicKey) ∧
      (wallet.addressBytes wl key.PublicKey).length = 25 ∧
      (wallet.addressBytes wl key.PublicKey)[0]? = some 0 ∧
      ((wallet.addressBytes wl key.PublicKey).drop 1).take 20 =
        (wl.ripemd160 (wl.sha256
          (bigIntBytes key.PublicKey.X ++ bigIntBytes key.PublicKey.Y)).val).val ∧
      (wallet.addressBytes wl key.PublicKey).drop 21 =
        (wl.sha256 (wl.sha256
          ((wallet.addressBytes wl key.PublicKey).take 21)).val).val.take 4 ∧
      ((wallet.addressBytes wl key.PublicKey).drop 21).length = 4 ∧
      ∀ key2 : ecdsa.PrivateKey, key2.PublicKey = key.PublicKey →
        ∃ w2 : wallet.Wallet, wallet.NewWallet wl (some key2) = some w2 ∧
          w2.blockchainAddress = w.blockchainAddress := by
  have h20 := (wl.ripemd160 (wl.sha256
    (bigIntBytes key.PublicKey.X ++ bigIntBytes key.PublicKey.Y)).val).property
  have h32 := (wl.sha256 (wl.sha256 (0 :: (wl.ripemd160 (wl.sha256
    (bigIntBytes key.PublicKey.X ++ bigIntBytes key.PublicKey.Y)).val).val)).val).property
  refine ⟨_, rfl, rfl, ?_, ?_, ?_, ?_, ?_, ?_⟩
  · rw [addressBytes_eq]
    simp [h20, h32]
  · rw [addressBytes_eq]
    simp
  · rw [addressBytes_eq]
    simp [List.take_append_of_le_length, h20, List.take_of_length_le]
  · rw [addressBytes_eq]
    simp [List.take_append_of_le_length, List.drop_append_of_le_length, h20,
      List.take_of_length_le, List.drop_of_length_le]
  · rw [addressBytes_eq]
    simp [h20, h32]
  · intro key2 hkey
    refine ⟨_, rfl, ?_⟩
    simp only [hkey]

/-- C15, at the failing inputs: for the private scalar 1 `PrivateKeyStr` returns the two
characters `01`, for the scalar `2^255` it returns 64 characters, so the length is not
fixed; every scalar below `2^248` gives at most 62 characters.  `PublicKeyStr`, which pads
each coordinate to 64 digits, returns 128 characters for the same wallet. -/
theorem PrivateKeyStr_not_fixed_width (publicKey : ecdsa.PublicKey) (address : String) :
    wallet.Wallet.PrivateKeyStr
      { privateKey := { PublicKey := publicKey, D := 1 }, publicKey := publicKey,
        blockchainAddress := address } = "01" ∧
    (wallet.Wallet.PrivateKeyStr
      { privateKey := { PublicKey := publicKey, D := 1 }, publicKey := publicKey,
        blockchainAddress := address }).length = 2 ∧
    (wallet.Wallet.PrivateKeyStr
      { privateKey := { PublicKey := publicKey, D := 2 ^ 255 }, publicKey := publicKey,
        blockchainAddress := address }).length = 64 ∧
    (∀ D : Nat, D < 2 ^ 248 →
      (wallet.Wallet.PrivateKeyStr
        { privateKey := { PublicKey := publicKey, D := (D : Int) }, publicKey := publicKey,
          blockchainAddress := address }).length ≤ 62) ∧
    (wallet.Wallet.PublicKeyStr
      { privateKey := { PublicKey := ⟨1, 1⟩, D := 1 }, publicKey := ⟨1, 1⟩,
        blockchainAddress := address }).length = 128 := by
  refine ⟨?_, ?_, ?_, ?_, ?_⟩
  · show String.mk (hexChars (bigIntBytes 1)) = "01"
    decide
  · show (String.mk (hexChars (bigIntBytes 1))).length = 2
    decide
  · exact hex_length_scalar_two_pow_255
  rotate_left
  · exact hexPadded64_length_one_one
  intro D hD
  have hlen : (natBytesAux D D).length ≤ 31 :=
    natBytesAux_length_le D D 31 (by
      calc D < 2 ^ 248 := hD
        _ = 256 ^ 31 := by norm_num)
  simp only [wallet.Wallet.PrivateKeyStr, String.length, bigIntBytes, hexChars_length,
    Int.natAbs_ofNat]
  omega

/-- C18: for every sender, recipient and value, and whatever the key fields,
`wallet.Transaction.MarshalJSON` produces the same text as `block.Transaction.MarshalJSON`
(and fails when it fails), so `GenerateSignature` signs the very digest
`VerifyTransactionSignature` checks for the same triple. -/
theorem MarshalJSON_wallet_eq_block (wl : WalletLib) (lib : Lib) (rand : List Nat)
    (privateKey : Option ecdsa.PrivateKey) (publicKey : Option ecdsa.PublicKey)
    (sender recipient : String) (value : Float32)
    (verifyKey : Option ecdsa.PublicKey) (sig : utils.Signature) :
    wallet.Transaction.MarshalJSON lib
        (wallet.NewTransaction privateKey publicKey sender recipient value) =
      block.Transaction.MarshalJSON lib (block.NewTransaction sender recipient value) ∧
    wallet.Transaction.GenerateSignature wl lib rand
        (wallet.NewTransaction privateKey publicKey sender recipient value) =
      (wl.ecdsaSign rand privateKey
        (lib.sha256 ((block.Transaction.MarshalJSON lib
          (block.NewTransaction sender recipient value)).getD ""))).map
        (fun rs => { R := rs.1, S := rs.2 }) ∧
    Blockchain.VerifyTransactionSignature lib verifyKey (some sig)
        (block.NewTransaction sender recipient value) =
      lib.ecdsaVerify verifyKey
        (lib.sha256 ((wallet.Transaction.MarshalJSON lib
          (wallet.NewTransaction privateKey publicKey sender recipient value)).getD ""))
        sig.R sig.S := by
  refine ⟨rfl, ?_, rfl⟩
  show (match wl.ecdsaSign rand privateKey (lib.sha256 ((block.Transaction.MarshalJSON lib
      (block.NewTransaction sender recipient value)).getD "")) with
    | none => none
    | some (r, s) => some ({ R := r, S := s } : utils.Signature)) = _
  generalize wl.ecdsaSign rand privateKey (lib.sha256 ((block.Transaction.MarshalJSON lib
    (block.NewTransaction sender recipient value)).getD "")) = result
  cases result with
  | none => rfl
  | some rs => rfl

/-! ## Auxiliary facts on backing arrays -/

namespace block

theorem Heap.cells_append_lt (heap : Heap) (x : List (Option Transaction)) (a : Nat)
    (h : a < heap.length) : Heap.cells (heap ++ [x]) a = Heap.cells heap a := by
  unfold Heap.cells
  rw [List.getElem?_append_left h]

theorem Heap.cells_append_length (heap : Heap) (x : List (Option Transaction)) :
    Heap.cells (heap ++ [x]) heap.length = x := by
  unfold Heap.cells
  rw [List.getElem?_concat_length]
  rfl

theorem Heap.cells_set_ne (heap : Heap) (x : List (Option Transaction)) (a b : Nat)
    (h : a ≠ b) : Heap.cells (heap.set a x) b = Heap.cells heap b := by
  unfold Heap.cells
  rw [List.getElem?_set_ne h]

theorem Heap.cells_set_self (heap : Heap) (x : List (Option Transaction)) (a : Nat)
    (h : a < heap.length) : Heap.cells (heap.set a x) a = x := by
  unfold Heap.cells
  rw [List.getElem?_set_self h]
  rfl

/-- Writing cell `n` leaves the first `n` cells as they were. -/
theorem take_set_self {α : Type} (l : List α) (n : Nat) (x : α) :
    (l.set n x).take n = l.take n := by
  induction l generalizing n with
  | nil => simp
  | cons y ys ih =>
    cases n with
    | zero => simp
    | succ n => simp [ih]

/-- A header whose cells all hold transactions denotes as many elements as its length. -/
theorem filterMap_take_length (l : List (Option Transaction)) (n : Nat)
    (hall : ∀ i : Nat, i < n → ∃ t : Transaction, l[i]? = some (some t)) :
    ((l.take n).filterMap id).length = n := by
  induction n with
  | zero => simp
  | succ n ih =>
    obtain ⟨t, ht⟩ := hall n (Nat.lt_succ_self n)
    rw [List.take_succ, ht]
    simp [ih (fun i hi => hall i (Nat.lt_succ_of_lt hi))]

theorem SliceRef.read_len (heap : Heap) (s : SliceRef) (hs : s.Valid heap) :
    (s.read heap).len = s.len := by
  cases s with
  | nilSlice => rfl
  | emptySlice => rfl
  | window a n =>
    obtain ⟨_, _, hall⟩ := hs
    simp only [SliceRef.read, Slice.len, Slice.elems, SliceRef.len]
    exact filterMap_take_length _ n hall

/-- An append to the slice `s` does not touch an array that `s` does not point at. -/
theorem appendRef_cells (spare : Nat → Nat) (heap : Heap) (s : SliceRef) (t : Transaction)
    (b : Nat) (hb : b < heap.length) (hsep : ∀ k : Nat, s ≠ SliceRef.window b k) :
    Heap.cells (appendRef spare heap s t).1 b = Heap.cells heap b ∧
    b < (appendRef spare heap s t).1.length := by
  cases s with
  | nilSlice =>
    simp only [appendRef]
    exact ⟨Heap.cells_append_lt heap _ b hb, by simp; omega⟩
  | emptySlice =>
    simp only [appendRef]
    exact ⟨Heap.cells_append_lt heap _ b hb, by simp; omega⟩
  | window a n =>
    have hab : a ≠ b := by
      intro h
      exact hsep n (by rw [h])
    simp only [appendRef]
    by_cases hcap : n < (Heap.cells heap a).length
    · rw [if_pos hcap]
      exact ⟨Heap.cells_set_ne heap _ a b hab, by simp; exact hb⟩
    · rw [if_neg hcap]
      exact ⟨Heap.cells_append_lt heap _ b hb, by simp; omega⟩

/-- An append to the slice `s` leaves every valid header that does not share the array of
`s` valid and denoting the same elements. -/
theorem appendRef_frame (spare : Nat → Nat) (heap : Heap) (s : SliceRef) (t : Transaction)
    (r : SliceRef) (hr : r.Valid heap)
    (hsep : ∀ a n k : Nat, r = SliceRef.window a n → s ≠ SliceRef.window a k) :
    r.read (appendRef spare heap s t).1 = r.read heap ∧
    r.Valid (appendRef spare heap s t).1 := by
  cases r with
  | nilSlice => exact ⟨rfl, trivial⟩
  | emptySlice => exact ⟨rfl, trivial⟩
  | window b n =>
    obtain ⟨hb, hn, hall⟩ := hr
    obtain ⟨hcells, hlt⟩ :=
      appendRef_cells spare heap s t b hb (fun k => hsep b n k rfl)
    refine ⟨?_, ?_⟩
    · simp only [SliceRef.read, hcells]
    · refine ⟨hlt, ?_, ?_⟩
      · rw [hcells]; exact hn
      · rw [hcells]; exact hall

end block

namespace block

/-- An append to a valid slice yields a valid header that denotes the old elements followed
by the new one; it points at the old array of the slice or at a newly allocated one. -/
theorem appendRef_pool (spare : Nat → Nat) (heap : Heap) (s : SliceRef) (t : Transaction)
    (hs : s.Valid heap) :
    (appendRef spare heap s t).2.read (appendRef spare heap s t).1 =
      (s.read heap).append t ∧
    (appendRef spare heap s t).2.Valid (appendRef spare heap s t).1 ∧
    ∃ a : Nat, (appendRef spare heap s t).2 = SliceRef.window a (s.len + 1) ∧
      (heap.length ≤ a ∨ ∃ n : Nat, s = SliceRef.window a n) := by
  have hfresh : ∀ (pre : List (Option Transaction)) (k : Nat),
      (∀ i : Nat, i < pre.length → ∃ u : Transaction, pre[i]? = some (some u)) →
      (SliceRef.window heap.length (pre.length + 1)).read
          (heap ++ [pre ++ [some t] ++ List.replicate k none]) =
        some (pre.filterMap id ++ [t]) ∧
      (SliceRef.window heap.length (pre.length + 1)).Valid
          (heap ++ [pre ++ [some t] ++ List.replicate k none]) := by
    intro pre k hpre
    refine ⟨?_, ?_, ?_, ?_⟩
    · simp only [SliceRef.read, Heap.cells_append_length]
      rw [List.append_assoc, List.take_append_eq_append_take]
      simp [List.take_of_length_le]
    · simp
    · rw [Heap.cells_append_length]
      simp
    · intro i hi
      rw [Heap.cells_append_length]
      by_cases hlt : i < pre.length
      · obtain ⟨u, hu⟩ := hpre i hlt
        refine ⟨u, ?_⟩
        rw [List.append_assoc, List.getElem?_append_left hlt]
        exact hu
      · have hi2 : i = pre.length := by omega
        refine ⟨t, ?_⟩
        rw [hi2, List.append_assoc, List.getElem?_append_right (le_refl _)]
        simp
  cases s with
  | nilSlice =>
    have h := hfresh [] (spare 0) (fun i hi => absurd hi (Nat.not_lt_zero i))
    exact ⟨h.1, h.2, heap.length, rfl, Or.inl (le_refl _)⟩
  | emptySlice =>
    have h := hfresh [] (spare 0) (fun i hi => absurd hi (Nat.not_lt_zero i))
    exact ⟨h.1, h.2, heap.length, rfl, Or.inl (le_refl _)⟩
  | window a n =>
    obtain ⟨ha, hn, hall⟩ := hs
    simp only [appendRef]
    by_cases hcap : n < (Heap.cells heap a).length
    · rw [if_pos hcap]
      have hcells := Heap.cells_set_self heap ((Heap.cells heap a).set n (some t)) a ha
      refine ⟨?_, ⟨?_, ?_, ?_⟩, a, rfl, Or.inr ⟨n, rfl⟩⟩
      · simp only [SliceRef.read, hcells, Slice.append, Slice.elems]
        rw [List.take_succ, take_set_self, List.getElem?_set_self hcap]
        simp
      · simp; exact ha
      · rw [hcells]; simp; omega
      · intro i hi
        rw [hcells]
        by_cases hin : i = n
        · exact ⟨t, by rw [hin, List.getElem?_set_self hcap]⟩
        · obtain ⟨u, hu⟩ := hall i (by omega)
          exact ⟨u, by rw [List.getElem?_set_ne (Ne.symm hin)]; exact hu⟩
    · rw [if_neg hcap]
      have hlen : ((Heap.cells heap a).take n).length = n := by
        rw [List.length_take]; omega
      have hpre : ∀ i : Nat, i < ((Heap.cells heap a).take n).length →
          ∃ u : Transaction, ((Heap.cells heap a).take n)[i]? = some (some u) := by
        intro i hi
        rw [hlen] at hi
        obtain ⟨u, hu⟩ := hall i hi
        exact ⟨u, by rw [List.getElem?_take_of_lt hi]; exact hu⟩
      have h := hfresh ((Heap.cells heap a).take n) (spare n) hpre
      rw [hlen] at h
      exact ⟨h.1, h.2, heap.length, rfl, Or.inl (le_refl _)⟩

end block

namespace block

/-- After an append to the pool the sealed blocks denote what they denoted before, the pool
denotes the old pool followed by the new transaction, and the ledger is still separated. -/
theorem MemLedger.push_view (m : MemLedger) (spare : Nat → Nat) (t : Transaction)
    (hm : m.Separated) :
    (m.push spare t).view =
      { m.view with transactionPool := m.view.transactionPool.append t } ∧
    (m.push spare t).Separated := by
  obtain ⟨hpool, hblocks⟩ := hm
  obtain ⟨hread, hvalid, a, href, hwhere⟩ :=
    appendRef_pool spare m.heap m.transactionPool t hpool
  have hframe : ∀ b : MemBlock, b ∈ m.chain →
      b.transactions.read (appendRef spare m.heap m.transactionPool t).1 =
        b.transactions.read m.heap ∧
      b.transactions.Valid (appendRef spare m.heap m.transactionPool t).1 := by
    intro b hb
    exact appendRef_frame spare m.heap m.transactionPool t b.transactions (hblocks b hb).1
      (fun x n k hx => (hblocks b hb).2 x n k hx)
  refine ⟨?_, ?_, ?_⟩
  · simp only [MemLedger.view, MemLedger.push, hread]
    congr 1
    apply List.map_congr_left
    intro b hb
    simp only [MemBlock.view, (hframe b hb).1]
  · exact hvalid
  · intro b hb
    refine ⟨(hframe b hb).2, ?_⟩
    intro x n k hx hpush
    have hpush2 : (appendRef spare m.heap m.transactionPool t).2 = SliceRef.window x k :=
      hpush
    rw [href] at hpush2
    have hax : a = x := by
      injection hpush2
    have hbvalid := (hblocks b hb).1
    rw [hx] at hbvalid
    rcases hwhere with hge | ⟨n2, hn2⟩
    · have := hbvalid.1
      omega
    · exact (hblocks b hb).2 x n n2 hx (by rw [hn2, hax])

/-- The method `AddTransaction` on headers does what `AddTransaction` by value does. -/
theorem MemLedger.AddTransaction_view (m : MemLedger) (lib : Lib) (spare : Nat → Nat)
    (sender recipient : String) (value : Float32)
    (senderPublicKey : Option ecdsa.PublicKey) (s : Option utils.Signature)
    (hm : m.Separated) :
    (m.AddTransaction lib spare sender recipient value senderPublicKey s).map
        (fun r => (r.1, r.2.view)) =
      m.view.AddTransaction lib sender recipient value senderPublicKey s ∧
    ∀ (ok : Bool) (m1 : MemLedger),
      m.AddTransaction lib spare sender recipient value senderPublicKey s = some (ok, m1) →
      m1.Separated := by
  have hpush := MemLedger.push_view m spare (NewTransaction sender recipient value) hm
  unfold MemLedger.AddTransaction Blockchain.AddTransaction
  by_cases hs : sender = MINING_SENDER
  · simp only [hs, if_true, Option.map_some', Option.some.injEq, Prod.mk.injEq]
    rw [hs] at hpush
    refine ⟨⟨trivial, hpush.1⟩, ?_⟩
    intro ok m1 h
    rw [← h.2]
    exact hpush.2
  · simp only [hs, if_false]
    cases hv : Blockchain.VerifyTransactionSignature lib senderPublicKey s
        (NewTransaction sender recipient value) with
    | none => simp
    | some b =>
      cases b with
      | true =>
        simp only [Option.map_some', Option.some.injEq, Prod.mk.injEq]
        refine ⟨⟨trivial, hpush.1⟩, ?_⟩
        intro ok m1 h
        rw [← h.2]
        exact hpush.2
      | false =>
        simp only [Option.map_some', Option.some.injEq, Prod.mk.injEq]
        refine ⟨trivial, ?_⟩
        intro ok m1 h
        rw [← h.2]
        exact hm

/-- The method `CreateBlock` on headers does what `CreateBlock` by value does. -/
theorem MemLedger.CreateBlock_view (m : MemLedger) (now : Int) (nonce : Int)
    (previousHash : Hash32) :
    (m.CreateBlock now nonce previousHash).view =
      (m.view.CreateBlock now nonce previousHash).2 := by
  simp [MemLedger.CreateBlock, MemLedger.view, Blockchain.CreateBlock, NewBlock,
    MemBlock.view, SliceRef.read]

/-- The method `CreateBlock` on headers keeps the ledger separated: the pool gets a header
without a backing array. -/
theorem MemLedger.CreateBlock_Separated (m : MemLedger) (now : Int) (nonce : Int)
    (previousHash : Hash32) (hm : m.Separated) :
    (m.CreateBlock now nonce previousHash).Separated := by
  obtain ⟨hpool, hblocks⟩ := hm
  refine ⟨trivial, ?_⟩
  intro b hb
  simp only [MemLedger.CreateBlock, List.mem_append, List.mem_singleton] at hb
  rcases hb with hb | hb
  · exact ⟨(hblocks b hb).1, fun a n k _ h => SliceRef.noConfusion h⟩
  · rw [hb]
    exact ⟨hpool, fun a n k _ h => SliceRef.noConfusion h⟩

end block

namespace block

/-- The method `Mining` on headers does what `Mining` by value does. -/
theorem MemLedger.Mining_view (m : MemLedger) (lib : Lib) (spare : Nat → Nat) (now : Int)
    (fuel : Nat) (hm : m.Separated) :
    (m.Mining lib spare now fuel).map (fun r => (r.1, r.2.view)) =
      m.view.Mining lib now fuel ∧
    ∀ (ok : Bool) (m1 : MemLedger),
      m.Mining lib spare now fuel = some (ok, m1) → m1.Separated := by
  have hlen : m.view.transactionPool.len = m.transactionPool.len :=
    SliceRef.read_len m.heap _ hm.1
  have hpush := MemLedger.push_view m spare
    (NewTransaction MINING_SENDER m.blockchainAddress MINING_REWARD) hm
  have hadd : m.AddTransaction lib spare MINING_SENDER m.blockchainAddress MINING_REWARD
      none none =
      some (true, m.push spare
        (NewTransaction MINING_SENDER m.blockchainAddress MINING_REWARD)) := by
    simp [MemLedger.AddTransaction]
  have hadd2 : m.view.AddTransaction lib MINING_SENDER m.view.blockchainAddress
      MINING_REWARD none none =
      some (true, (m.push spare
        (NewTransaction MINING_SENDER m.blockchainAddress MINING_REWARD)).view) := by
    rw [hpush.1]
    simp [Blockchain.AddTransaction]
    rfl
  unfold MemLedger.Mining Blockchain.Mining
  rw [hlen, hadd, hadd2]
  by_cases h0 : m.transactionPool.len = 0
  · simp only [h0, if_true, Option.map_some', Option.some.injEq, Prod.mk.injEq]
    refine ⟨trivial, ?_⟩
    intro ok m1 h
    rw [← h.2]
    exact hm
  · simp only [h0, if_false]
    cases Blockchain.ProofOfWork (m.push spare
        (NewTransaction MINING_SENDER m.blockchainAddress MINING_REWARD)).view lib fuel with
    | none => simp
    | some nonce =>
      cases Blockchain.LastBlock (m.push spare
          (NewTransaction MINING_SENDER m.blockchainAddress MINING_REWARD)).view with
      | none => simp
      | some last =>
        simp only [Option.map_some', Option.some.injEq, Prod.mk.injEq, true_and]
        refine ⟨MemLedger.CreateBlock_view _ now nonce (last.Hash lib), ?_⟩
        intro ok m1 h
        rw [← h.2]
        exact MemLedger.CreateBlock_Separated _ now nonce (last.Hash lib) hpush.2

/-- Every reachable ledger of headers is separated, and the ledger by value it denotes is
reachable in the model by value. -/
theorem MemReachable_view (lib : Lib) (spare : Nat → Nat) (m : MemLedger)
    (h : MemReachable lib spare m) : m.Separated ∧ Reachable lib m.view := by
  induction h with
  | init now addr port =>
    refine ⟨⟨trivial, ?_⟩, ?_⟩
    · intro b hb
      simp only [MemNewBlockchain, MemLedger.CreateBlock, List.nil_append,
        List.mem_singleton] at hb
      rw [hb]
      exact ⟨trivial, fun a n k h => SliceRef.noConfusion h⟩
    · exact Reachable.init now addr port
  | @addTransaction m0 m1 ok sender recipient value pk s _ hrun ih =>
    have hv := MemLedger.AddTransaction_view m0 lib spare sender recipient value pk s ih.1
    refine ⟨hv.2 ok m1 hrun, ?_⟩
    have hval : m0.view.AddTransaction lib sender recipient value pk s =
        some (ok, m1.view) := by
      rw [← hv.1, hrun]; rfl
    exact Reachable.addTransaction sender recipient value pk s ih.2 hval
  | @createTransaction m0 m1 ok sender recipient value pk s _ hrun ih =>
    have hv := MemLedger.AddTransaction_view m0 lib spare sender recipient value pk s ih.1
    refine ⟨hv.2 ok m1 hrun, ?_⟩
    have hval : m0.view.CreateTransaction lib sender recipient value pk s =
        some (ok, m1.view) := by
      have hrun2 : m0.AddTransaction lib spare sender recipient value pk s =
          some (ok, m1) := hrun
      show m0.view.AddTransaction lib sender recipient value pk s = some (ok, m1.view)
      rw [← hv.1, hrun2]; rfl
    exact Reachable.createTransaction sender recipient value pk s ih.2 hval
  | @mining m0 m1 ok now fuel _ hrun ih =>
    have hv := MemLedger.Mining_view m0 lib spare now fuel ih.1
    refine ⟨hv.2 ok m1 hrun, ?_⟩
    have hval : m0.view.Mining lib now fuel = some (ok, m1.view) := by
      rw [← hv.1, hrun]; rfl
    exact Reachable.mining now fuel ih.2 hval

end block

/-! ## Sealed blocks -/

/-- C19: for every ledger state the program can reach and every call of `AddTransaction` or
`CreateTransaction`, admitting or rejecting, the chain after the call equals the chain
before, block for block, timestamp, nonce, `previousHash` and transaction list included.
This holds with the slices taken as headers into shared backing arrays (the list of a
sealed block is read through the heap as the call leaves it), and the call by value on the
ledger has the same outcome; by value, the chain is unchanged in every ledger state. -/
theorem AddTransaction_leaves_sealed_blocks (lib : Lib) (spare : Nat → Nat)
    (m m1 : MemLedger) (ok : Bool) (sender recipient : String) (value : Float32)
    (senderPublicKey : Option ecdsa.PublicKey) (s : Option utils.Signature)
    (hm : MemReachable lib spare m)
    (hrun : m.AddTransaction lib spare sender recipient value senderPublicKey s =
        some (ok, m1) ∨
      m.CreateTransaction lib spare sender recipient value senderPublicKey s =
        some (ok, m1)) :
    m1.view.chain = m.view.chain ∧
    m1.chain = m.chain ∧
    (∀ b : MemBlock, b ∈ m.chain → MemBlock.view m1.heap b = MemBlock.view m.heap b) ∧
    m.view.AddTransaction lib sender recipient value senderPublicKey s =
      some (ok, m1.view) ∧
    ∀ (bc bc1 : Blockchain) (ok1 : Bool),
      (bc.AddTransaction lib sender recipient value senderPublicKey s = some (ok1, bc1) ∨
        bc.CreateTransaction lib sender recipient value senderPublicKey s =
          some (ok1, bc1)) →
      bc1.chain = bc.chain := by
  have hrun1 : m.AddTransaction lib spare sender recipient value senderPublicKey s =
      some (ok, m1) := by
    rcases hrun with h | h
    · exact h
    · exact h
  have hsep := (MemReachable_view lib spare m hm).1
  have hv := MemLedger.AddTransaction_view m lib spare sender recipient value
    senderPublicKey s hsep
  have hval : m.view.AddTransaction lib sender recipient value senderPublicKey s =
      some (ok, m1.view) := by
    rw [← hv.1, hrun1]; rfl
  have hchain : m1.view.chain = m.view.chain :=
    Blockchain.AddTransaction_chain m.view m1.view lib sender recipient value
      senderPublicKey s ok hval
  have hheaders : m1.chain = m.chain := by
    unfold MemLedger.AddTransaction at hrun1
    by_cases hs : sender = MINING_SENDER
    · simp only [hs, if_true, Option.some.injEq, Prod.mk.injEq] at hrun1
      rw [← hrun1.2]; rfl
    · simp only [hs, if_false] at hrun1
      cases hver : Blockchain.VerifyTransactionSignature lib senderPublicKey s
          (NewTransaction sender recipient value) with
      | none => rw [hver] at hrun1; simp at hrun1
      | some b =>
        rw [hver] at hrun1
        cases b with
        | true =>
          simp only [Option.some.injEq, Prod.mk.injEq] at hrun1
          rw [← hrun1.2]; rfl
        | false =>
          simp only [Option.some.injEq, Prod.mk.injEq] at hrun1
          rw [← hrun1.2]
  refine ⟨hchain, hheaders, ?_, hval, ?_⟩
  · intro b hb
    have hmap : m1.chain.map (MemBlock.view m1.heap) = m.chain.map (MemBlock.view m.heap) :=
      hchain
    rw [hheaders] at hmap
    exact List.map_inj_left.mp hmap b hb
  · intro bc bc1 ok1 h
    rcases h with h | h
    · exact Blockchain.AddTransaction_chain bc bc1 lib sender recipient value
        senderPublicKey s ok1 h
    · exact Blockchain.AddTransaction_chain bc bc1 lib sender recipient value
        senderPublicKey s ok1 h

set_option maxRecDepth 100000 in
/-- C19 at `sampleMemLedger`, reached by admitting alice's transfer and mining: the transfer
is admitted once more, a new array is allocated for the pool, and the chain still reads as
`sampleMined.chain`. -/
theorem AddTransaction_leaves_sealed_blocks_witness :
    sampleMemLedger.view.chain = sampleMined.chain ∧
    ∃ m1 : MemLedger,
      sampleMemLedger.AddTransaction sampleLib doublingSpare "alice" "bob" (Float32.ofNat 1)
        (some ⟨1, 2⟩) (some ⟨some 1, some 2⟩) = some (true, m1) ∧
      m1.transactionPool = SliceRef.window 2 1 ∧
      m1.view.chain = sampleMemLedger.view.chain :=
  ⟨by decide,
   sampleMemLedger.push doublingSpare (NewTransaction "alice" "bob" (Float32.ofNat 1)),
   by decide, by decide,
   (AddTransaction_leaves_sealed_blocks sampleLib doublingSpare sampleMemLedger
     (sampleMemLedger.push doublingSpare (NewTransaction "alice" "bob" (Float32.ofNat 1)))
     true "alice" "bob" (Float32.ofNat 1) (some ⟨1, 2⟩) (some ⟨some 1, some 2⟩)
     (MemReachable.mining 7 4
       (MemReachable.addTransaction "alice" "bob" (Float32.ofNat 1) (some ⟨1, 2⟩)
         (some ⟨some 1, some 2⟩) (MemReachable.init 0 "miner" 5000)
         (show (MemNewBlockchain sampleLib 0 "miner" 5000).AddTransaction sampleLib
           doublingSpare "alice" "bob" (Float32.ofNat 1) (some ⟨1, 2⟩)
           (some ⟨some 1, some 2⟩) = some (true, sampleMemPool) by decide))
       (show sampleMemPool.Mining sampleLib doublingSpare 7 4 =
         some (true, sampleMemLedger) by decide))
     (Or.inl (by decide))).1⟩

/-! ## A value that cannot be rendered -/

/-- When one element cannot be rendered, the list cannot. -/
theorem marshalElements_none (lib : Lib) (l : List Transaction) (t : Transaction)
    (ht : t ∈ l) (hfail : lib.jsonFloat32 t.value = none) : marshalElements lib l = none := by
  induction l with
  | nil => simp at ht
  | cons x xs ih =>
    simp only [List.mem_cons] at ht
    unfold marshalElements
    rcases ht with ht | ht
    · have hx : Transaction.MarshalJSON lib x = none := by
        rw [← ht]
        simp [Transaction.MarshalJSON, hfail]
      rw [hx]
    · rw [ih ht]
      cases Transaction.MarshalJSON lib x <;> rfl

/-- The loop of `ProofOfWork` never returns when no nonce passes `ValidProof`. -/
theorem ProofOfWorkLoop_none (lib : Lib) (previousHash : Hash32)
    (transactions : Slice Transaction)
    (hnever : ∀ nonce : Int,
      Blockchain.ValidProof lib nonce previousHash transactions MINING_DIFFICULTY =
        some false)
    (fuel : Nat) (start : Int) :
    Blockchain.ProofOfWorkLoop lib previousHash transactions fuel start = none := by
  induction fuel generalizing start with
  | zero => rfl
  | succ fuel ih =>
    unfold Blockchain.ProofOfWorkLoop
    rw [hnever start]
    exact ih _

/-- A pooled value that `encoding/json` cannot render (NaN, an infinity) makes
`json.Marshal` fail for every guess block; `Hash` drops the error and hashes the empty
text, so unless the digest of the empty text begins with `MINING_DIFFICULTY` zeros no nonce
is ever valid and `Mining` does not return, whatever the loop budget. -/
theorem Mining_never_returns_on_unsupported_value (lib : Lib) (bc : Blockchain)
    (t : Transaction) (ht : t ∈ bc.transactionPool.elems)
    (hfail : lib.jsonFloat32 t.value = none)
    (hempty : (hexChars (lib.sha256 "").val).take MINING_DIFFICULTY ≠
      List.replicate MINING_DIFFICULTY '0')
    (now : Int) (fuel : Nat) : bc.Mining lib now fuel = none := by
  have hpool : bc.transactionPool.len ≠ 0 := by
    intro h0
    have : bc.transactionPool.elems = [] := List.length_eq_zero.mp h0
    rw [this] at ht
    simp at ht
  rw [Blockchain.Mining_of_nonempty bc lib now fuel hpool]
  cases bc.LastBlock with
  | none => rfl
  | some last =>
    have hnever : ∀ nonce : Int,
        Blockchain.ValidProof lib nonce (last.Hash lib)
          (some (bc.transactionPool.elems ++ [bc.rewardTransaction])) MINING_DIFFICULTY =
          some false := by
      intro nonce
      rcases Blockchain.ValidProof_isSome lib nonce (last.Hash lib)
        (some (bc.transactionPool.elems ++ [bc.rewardTransaction])) with hv | hv
      · rw [ValidProof_true_iff] at hv
        have hm : marshalElements lib (bc.transactionPool.elems ++ [bc.rewardTransaction]) =
            none :=
          marshalElements_none lib _ t (List.mem_append_left _ ht) hfail
        simp only [Block.Hash, Block.MarshalJSON, marshalTransactions, hm,
          Option.getD_none] at hv
        exact absurd hv hempty
      · exact hv
    simp only [ProofOfWorkLoop_none lib _ _ hnever fuel 0]

set_option maxRecDepth 1000000 in
/-- With SHA-256 itself: a ledger whose pool holds a transfer of NaN is never mined. -/
theorem Mining_never_returns_on_NaN (now : Int) (fuel : Nat) :
    Blockchain.Mining
      { NewBlockchain shaLib 1700000000000001319 "miner" 5000 with
        transactionPool := some [NewTransaction "alice" "bob" Float32.nan] }
      shaLib now fuel = none :=
  Mining_never_returns_on_unsupported_value shaLib _
    (NewTransaction "alice" "bob" Float32.nan) (List.mem_singleton.mpr rfl) rfl
    (by decide) now fuel


set_option maxRecDepth 1000000 in
/-- C1, refuted with SHA-256 itself: a fresh ledger admits a transfer of NaN in the name of
`MINING_SENDER`, so `nanLedger` is reachable and its pool is not empty, yet `Mining` returns
for no clock reading and no loop budget: `json.Marshal` fails on every guess block, every
guess hashes the empty text, whose digest begins with `e3b`, and the loop never ends.  On
the zero-valued ledger with a transaction in its pool `Mining` does not return either,
whatever the libraries: `LastBlock` indexes an empty chain. -/
theorem Mining_nonempty_pool_never_returns :
    (NewBlockchain shaLib 1700000000000001319 "miner" 5000).AddTransaction shaLib
        MINING_SENDER "bob" Float32.nan none none = some (true, nanLedger) ∧
    Reachable shaLib nanLedger ∧
    nanLedger.transactionPool.len ≠ 0 ∧
    (∀ (now : Int) (fuel : Nat), nanLedger.Mining shaLib now fuel = none) ∧
    (¬ ∃ (now : Int) (fuel : Nat) (bc1 : Blockchain),
      nanLedger.Mining shaLib now fuel = some (true, bc1)) ∧
    Blockchain.zeroValue.AddTransaction shaLib MINING_SENDER "bob" (Float32.ofNat 1)
        none none = some (true, unchainedLedger) ∧
    unchainedLedger.transactionPool.len ≠ 0 ∧
    ∀ (lib : Lib) (now : Int) (fuel : Nat), unchainedLedger.Mining lib now fuel = none := by
  have hadd : (NewBlockchain shaLib 1700000000000001319 "miner" 5000).AddTransaction shaLib
      MINING_SENDER "bob" Float32.nan none none = some (true, nanLedger) := rfl
  have hnever : ∀ (now : Int) (fuel : Nat), nanLedger.Mining shaLib now fuel = none :=
    fun now fuel =>
      Mining_never_returns_on_unsupported_value shaLib nanLedger
        (NewTransaction MINING_SENDER "bob" Float32.nan) (List.mem_singleton.mpr rfl) rfl
        (by decide) now fuel
  refine ⟨hadd, ?_, by decide, hnever, ?_, rfl, by decide, ?_⟩
  · exact Reachable.addTransaction MINING_SENDER "bob" Float32.nan none none
      (Reachable.init 1700000000000001319 "miner" 5000) hadd
  · rintro ⟨now, fuel, bc1, h⟩
    rw [hnever now fuel] at h
    exact Option.noConfusion h
  · intro lib now fuel
    rw [Blockchain.Mining_of_nonempty unchainedLedger lib now fuel (by decide)]
    rfl
